import Mathlib

/-!
SimpleLRU: a size-bounded LRU cache (src/storage/SimpleLRU.cpp).

Shallow embedding of the eviction engine `Afina::Backend::SimpleLRU`.

Representation choices.

* `std::string` is a sequence of `char`; it is embedded as `List Char`, and
  `size()` is `List.length`.
* The recency list is an ownership chain: `_lru_head` owns the first node,
  every node owns its successor through `next`, and the raw pointer `prev`
  of a node points at its predecessor (the `prev` of the head points at the
  tail).  The chain is embedded as the `List lru_node` read from `_lru_head`
  along `next`; a null `_lru_head` is `[]`.  The first element is the LRU
  end, the last element is the MRU end.  Every function keeps the branch
  structure of the source on that list.
* `_lru_index` is a `std::map` from (a reference to) a node's key to (a
  reference to) that node.  It is embedded as the list of the keys it holds;
  the node an index entry refers to is the node of the chain carrying that
  key.  The index and the chain are updated separately, exactly where the
  source updates them.
* `std::size_t` values are natural numbers, and unsigned arithmetic on the
  counter wraps modulo `2^64`: the sum `_current_size + size` in the guard of
  the eviction loop and the updates `_current_size += ...` are `size_add`,
  the update `_current_size -= ...` is `size_sub`.  The sum
  `key.size() + value.size()` of two string sizes is exact, because a
  `std::string` is shorter than `2^63` bytes.
* Undefined behaviour (dereferencing a null `_lru_head`, using a node after
  it has been destroyed, following an index entry to a node that does not
  exist) and a loop that can never exit are the result `none`.
-/

namespace Afina.Backend

/-- Byte strings (`std::string`). -/
abbrev Str := List Char

/-- Modelled from the spec: the node type `lru_node` is declared in
`SimpleLRU.h`, which is not part of the sources; an entry is a `key` and a
`value` (spec section 3), its `prev`/`next` links are the position in the
chain. -/
structure lru_node where
  key : Str
  value : Str
deriving DecidableEq

/-- Modelled from the spec: the members of `SimpleLRU` are declared in
`SimpleLRU.h`, which is not part of the sources; they are the capacity
bound, the size counter, the index and the recency chain (spec section 3),
under the names the functions of `SimpleLRU.cpp` use. -/
structure SimpleLRU where
  _max_size : Nat
  _current_size : Nat
  _lru_index : List Str
  _lru_head : List lru_node
deriving DecidableEq

/-- Number of values of `std::size_t`. -/
def SIZE_MOD : Nat := 2 ^ 64

/-- Unsigned addition `a + b` of two `std::size_t` values: the sum modulo
`2^64`. -/
def size_add (a b : Nat) : Nat := (a + b) % SIZE_MOD

/-- Unsigned subtraction `a -= b`: exact when `b ≤ a`, wrapping otherwise. -/
def size_sub (a b : Nat) : Nat :=
  if b ≤ a then a - b else (a + SIZE_MOD - b) % SIZE_MOD

/-- The bytes an entry accounts for: `key.size() + value.size()`. -/
def nodeSize (n : lru_node) : Nat := n.key.length + n.value.length

/-- A freshly constructed cache: empty index, null head, counter zero. -/
def SimpleLRU.init (max_size : Nat) : SimpleLRU :=
  { _max_size := max_size, _current_size := 0, _lru_index := [], _lru_head := [] }

/-- The node an index entry for `key` refers to, with the part of the chain
before it and the part after it (`node.next`); `none` when no node of the
chain carries `key`. -/
def locate (key : Str) : List lru_node → Option (List lru_node × lru_node × List lru_node)
  | [] => none
  | n :: rest =>
    if n.key = key then some ([], n, rest)
    else match locate key rest with
      | none => none
      | some (pre, x, post) => some (n :: pre, x, post)

/-- `SimpleLRU::PutToTail`, applied to the node detached by
`std::move((&node == _lru_head.get()) ? _lru_head : node.prev->next)`:
`pre` precedes the node (`pre = []` iff the node was the head, so
`_lru_head` is null after the move), `post` is `node->next`. -/
def PutToTail (pre : List lru_node) (node : lru_node) (post : List lru_node) :
    List lru_node :=
  match post with
  | [] =>
    match pre with
    | [] => [node]             -- `_lru_head = std::move(node)`
    | _ :: _ => pre ++ [node]  -- `node->prev->next = std::move(node)`
  | _ :: _ =>
    match pre with
    | [] => post ++ [node]     -- head moves behind the old tail
    | _ :: _ => pre ++ post ++ [node]  -- unlink a middle node, relink at the tail

/-- `SimpleLRU::Delete`. -/
def Delete (s : SimpleLRU) (key : Str) : Option (Bool × SimpleLRU) :=
  if key ∈ s._lru_index then
    match locate key s._lru_head with
    | none => none
    | some (pre, node, post) =>
      let chain : List lru_node :=
        match pre, post with
        | [], [] => []                    -- only head exists
        | [], _ :: _ => post              -- deleting head
        | _ :: _, [] => pre               -- deleting tail
        | _ :: _, _ :: _ => pre ++ post   -- deleting a middle node
      some (true,
        { s with
          _lru_index := s._lru_index.erase key
          _current_size := size_sub s._current_size (node.key.length + node.value.length)
          _lru_head := chain })
  else some (false, s)

/-- The loop of `SimpleLRU::Clear`:
`while (_current_size + size > _max_size) Delete(_lru_head->key);`.
The sum of the condition is taken in `std::size_t` and wraps.  A `Delete`
that returns `false` leaves the state as it was, so the loop condition stays
true for ever: that is `none`, like the null dereference.  The first
argument bounds the number of iterations. -/
def ClearLoop : Nat → SimpleLRU → Nat → Option SimpleLRU
  | 0, _, _ => none
  | fuel + 1, s, size =>
    if size_add s._current_size size > s._max_size then
      match s._lru_head with
      | [] => none
      | head :: _ =>
        match Delete s head.key with
        | none => none
        | some (true, s1) => ClearLoop fuel s1 size
        | some (false, _) => none
    else some s

/-- `SimpleLRU::Clear`.  Every iteration that does not stop the loop removes
one node, so one more iteration than there are nodes is always enough. -/
def Clear (s : SimpleLRU) (size : Nat) : Option (Bool × SimpleLRU) :=
  if size > s._max_size then some (false, s)
  else
    match ClearLoop (s._lru_head.length + 1) s size with
    | none => none
    | some s1 => some (true, s1)

/-- `SimpleLRU::SimplePut`. -/
def SimplePut (s : SimpleLRU) (key value : Str) : Option SimpleLRU :=
  match Clear s (key.length + value.length) with
  | none => none
  | some (_, s1) =>
    let chain : List lru_node :=
      match s1._lru_head with
      | [] => [{ key := key, value := value }]
      | _ :: _ => s1._lru_head ++ [{ key := key, value := value }]
    some
      { s1 with
        _lru_index := if key ∈ s1._lru_index then s1._lru_index else key :: s1._lru_index
        _current_size := size_add s1._current_size (key.length + value.length)
        _lru_head := chain }

/-- The assignment `node.value = value` through the reference `node` taken
from the index entry of `key`; `none` when that node has been destroyed. -/
def assignValue (key value : Str) : List lru_node → Option (List lru_node)
  | [] => none
  | n :: rest =>
    if n.key = key then some ({ n with value := value } :: rest)
    else match assignValue key value rest with
      | none => none
      | some rest1 => some (n :: rest1)

/-- `SimpleLRU::Set`. -/
def Set (s : SimpleLRU) (key value : Str) : Option (Bool × SimpleLRU) :=
  if key.length + value.length > s._max_size then some (false, s)
  else if key ∉ s._lru_index then some (false, s)
  else
    match locate key s._lru_head with
    | none => none
    | some (pre, node, post) =>
      let s1 : SimpleLRU := { s with _lru_head := PutToTail pre node post }
      let to_free : Nat :=
        if value.length > node.value.length then value.length - node.value.length else 0
      match Clear s1 to_free with
      | none => none
      | some (_, s2) =>
        match assignValue key value s2._lru_head with
        | none => none
        | some chain =>
          some (true,
            { s2 with
              _current_size := size_add s2._current_size to_free
              _lru_head := chain })

/-- `SimpleLRU::Put`. -/
def Put (s : SimpleLRU) (key value : Str) : Option (Bool × SimpleLRU) :=
  if key.length + value.length > s._max_size then some (false, s)
  else
    match Set s key value with
    | none => none
    | some (true, s1) => some (true, s1)
    | some (false, s1) =>
      match SimplePut s1 key value with
      | none => none
      | some s2 => some (true, s2)

/-- `SimpleLRU::PutIfAbsent`. -/
def PutIfAbsent (s : SimpleLRU) (key value : Str) : Option (Bool × SimpleLRU) :=
  if key.length + value.length > s._max_size then some (false, s)
  else if key ∉ s._lru_index then
    match SimplePut s key value with
    | none => none
    | some s1 => some (true, s1)
  else some (false, s)

/-- `SimpleLRU::Get`; `value` is the caller's output parameter, returned as
the middle component (untouched when the key is not found). -/
def Get (s : SimpleLRU) (key value : Str) : Option (Bool × Str × SimpleLRU) :=
  if key ∉ s._lru_index then some (false, value, s)
  else
    match locate key s._lru_head with
    | none => none
    | some (pre, node, post) =>
      some (true, node.value, { s with _lru_head := PutToTail pre node post })

/-- A call of one of the five public operations. -/
inductive Op where
  | put (key value : Str)
  | putIfAbsent (key value : Str)
  | set (key value : Str)
  | delete (key : Str)
  | get (key : Str)
deriving DecidableEq

/-- The state after one call, when the call completes. -/
def step (s : SimpleLRU) : Op → Option SimpleLRU
  | .put k v => (Put s k v).map (fun r => r.2)
  | .putIfAbsent k v => (PutIfAbsent s k v).map (fun r => r.2)
  | .set k v => (Set s k v).map (fun r => r.2)
  | .delete k => (Delete s k).map (fun r => r.2)
  | .get k => (Get s k []).map (fun r => r.2.2)

/-- The state after a sequence of calls, when all of them complete. -/
def run (s : SimpleLRU) : List Op → Option SimpleLRU
  | [] => some s
  | op :: ops =>
    match step s op with
    | none => none
    | some s1 => run s1 ops

/-- States reachable from the empty cache of capacity `max_size`. -/
def Reachable (max_size : Nat) (s : SimpleLRU) : Prop :=
  ∃ ops : List Op, run (SimpleLRU.init max_size) ops = some s

/-- Sum of `len(key) + len(value)` over the entries of a chain. -/
def sumSizes (l : List lru_node) : Nat := (l.map nodeSize).sum

/-- Keys of the entries of a chain, LRU end first. -/
def chainKeys (l : List lru_node) : List Str := l.map (fun n => n.key)

/-- The invariants of spec section 3: exact size accounting, the capacity
bound, index and recency order hold the same keys, no duplicate keys. -/
def Inv3 (s : SimpleLRU) : Prop :=
  s._current_size = sumSizes s._lru_head ∧
  s._current_size ≤ s._max_size ∧
  (∀ k ∈ s._lru_index, k ∈ chainKeys s._lru_head) ∧
  (∀ k ∈ chainKeys s._lru_head, k ∈ s._lru_index) ∧
  (chainKeys s._lru_head).Nodup ∧
  s._lru_index.Nodup

instance (s : SimpleLRU) : Decidable (Inv3 s) := by
  unfold Inv3; infer_instance

/-- What every completed operation preserves as long as no sum on the
counter wraps (in particular for capacities below `2^63`): the counter never
under-counts and never exceeds the capacity, index and recency order hold
the same keys, and no key occurs twice. -/
def WF (s : SimpleLRU) : Prop :=
  sumSizes s._lru_head ≤ s._current_size ∧
  s._current_size ≤ s._max_size ∧
  (∀ k, k ∈ s._lru_index ↔ k ∈ chainKeys s._lru_head) ∧
  (chainKeys s._lru_head).Nodup ∧
  s._lru_index.Nodup


/-- The part of `WF` that does not mention the counter: index and recency
order hold the same keys, and no key occurs twice. -/
def Linked (s : SimpleLRU) : Prop :=
  (∀ k, k ∈ s._lru_index ↔ k ∈ chainKeys s._lru_head) ∧
  (chainKeys s._lru_head).Nodup ∧
  s._lru_index.Nodup

/-- The cache of the spec's scenario (capacity 10) after `Put("a","1")`,
`Put("b","22")`, `Put("c","333")`, `Get("a")`. -/
def scenarioState : SimpleLRU :=
  { _max_size := 10, _current_size := 9,
    _lru_index := [['c'], ['b'], ['a']],
    _lru_head := [{ key := ['b'], value := ['2', '2'] },
                  { key := ['c'], value := ['3', '3', '3'] },
                  { key := ['a'], value := ['1'] }] }

/-- The calls that lead to `scenarioState`. -/
def scenarioOps : List Op :=
  [.put ['a'] ['1'], .put ['b'] ['2', '2'], .put ['c'] ['3', '3', '3'], .get ['a']]

/-- The scenario's final cache, after `Put("d","4444")`. -/
def scenarioFinal : SimpleLRU :=
  { _max_size := 10, _current_size := 7,
    _lru_index := [['d'], ['a']],
    _lru_head := [{ key := ['a'], value := ['1'] },
                  { key := ['d'], value := ['4', '4', '4', '4'] }] }

/-- A cache of capacity 10 after `Put("a","123456789")` and `Set("a","")`:
one live byte, counter 10. -/
def shrunkState : SimpleLRU :=
  { _max_size := 10, _current_size := 10, _lru_index := [['a']],
    _lru_head := [{ key := ['a'], value := [] }] }

/-- The calls that lead to `shrunkState`. -/
def shrunkOps : List Op :=
  [.put ['a'] ['1', '2', '3', '4', '5', '6', '7', '8', '9'], .set ['a'] []]

/-- The cache `shrunkState` once its only entry has been evicted. -/
def shrunkEvicted : SimpleLRU :=
  { _max_size := 10, _current_size := 9, _lru_index := [], _lru_head := [] }

/-- A cache of capacity 10 after `Put("a","12345")` and `Set("a","")`:
one live byte, counter 6. -/
def overcountState : SimpleLRU :=
  { _max_size := 10, _current_size := 6, _lru_index := [['a']],
    _lru_head := [{ key := ['a'], value := [] }] }

/-- The calls that lead to `overcountState`. -/
def overcountOps : List Op :=
  [.put ['a'] ['1', '2', '3', '4', '5'], .set ['a'] []]

/-- The cache `overcountState` after `Put("b","1234")`. -/
def overcountAfterPut : SimpleLRU :=
  { _max_size := 10, _current_size := 10, _lru_index := [['b']],
    _lru_head := [{ key := ['b'], value := ['1', '2', '3', '4'] }] }

/-- A cache of capacity 10 after `Put("","")`: one entry of zero bytes. -/
def emptyEntryState : SimpleLRU :=
  { _max_size := 10, _current_size := 0, _lru_index := [[]],
    _lru_head := [{ key := [], value := [] }] }

/-- The cache `emptyEntryState` after `Put("a","123456789")`. -/
def emptyEntryAfterPut : SimpleLRU :=
  { _max_size := 10, _current_size := 10, _lru_index := [['a'], []],
    _lru_head := [{ key := [], value := [] },
                  { key := ['a'], value := ['1', '2', '3', '4', '5', '6', '7', '8', '9'] }] }

/-- A cache of capacity `2^64 - 1` holding the entry `a:"1"`. -/
def wideState : SimpleLRU :=
  { _max_size := 18446744073709551615, _current_size := 2, _lru_index := [['a']],
    _lru_head := [{ key := ['a'], value := ['1'] }] }

/-! Lists of nodes -/

@[simp] theorem sumSizes_nil : sumSizes [] = 0 := rfl

@[simp] theorem sumSizes_cons (n : lru_node) (l : List lru_node) :
    sumSizes (n :: l) = nodeSize n + sumSizes l := by
  simp [sumSizes]

@[simp] theorem sumSizes_append (l₁ l₂ : List lru_node) :
    sumSizes (l₁ ++ l₂) = sumSizes l₁ + sumSizes l₂ := by
  simp [sumSizes]

@[simp] theorem chainKeys_nil : chainKeys [] = [] := rfl

@[simp] theorem chainKeys_cons (n : lru_node) (l : List lru_node) :
    chainKeys (n :: l) = n.key :: chainKeys l := rfl

@[simp] theorem chainKeys_append (l₁ l₂ : List lru_node) :
    chainKeys (l₁ ++ l₂) = chainKeys l₁ ++ chainKeys l₂ := by
  simp [chainKeys]

theorem mem_chainKeys {k : Str} {l : List lru_node} :
    k ∈ chainKeys l ↔ ∃ n ∈ l, n.key = k := by
  simp [chainKeys]

theorem sumSizes_take_add_drop (n : Nat) (l : List lru_node) :
    sumSizes (l.take n) + sumSizes (l.drop n) = sumSizes l := by
  rw [← sumSizes_append, List.take_append_drop]

/-! `locate` -/

theorem locate_some {key : Str} {l pre post : List lru_node} {n : lru_node}
    (h : locate key l = some (pre, n, post)) :
    l = pre ++ n :: post ∧ n.key = key ∧ key ∉ chainKeys pre := by
  induction l generalizing pre with
  | nil => simp [locate] at h
  | cons a rest ih =>
    unfold locate at h
    by_cases hk : a.key = key
    · simp only [hk, if_true, Option.some.injEq, Prod.mk.injEq] at h
      obtain ⟨rfl, rfl, rfl⟩ := h
      simp [hk]
    · simp only [hk, if_false] at h
      cases hr : locate key rest with
      | none => simp [hr] at h
      | some r =>
        obtain ⟨pre1, x, post1⟩ := r
        simp only [hr, Option.some.injEq, Prod.mk.injEq] at h
        obtain ⟨rfl, rfl, rfl⟩ := h
        obtain ⟨h1, h2, h3⟩ := ih hr
        refine ⟨by simp [h1], h2, ?_⟩
        simp only [chainKeys_cons, List.mem_cons, not_or]
        exact ⟨fun e => hk e.symm, h3⟩

theorem locate_append {pre post : List lru_node} {n : lru_node}
    (h : n.key ∉ chainKeys pre) :
    locate n.key (pre ++ n :: post) = some (pre, n, post) := by
  induction pre with
  | nil => simp [locate]
  | cons a rest ih =>
    simp only [chainKeys_cons, List.mem_cons, not_or] at h
    have hne : ¬ a.key = n.key := fun e => h.1 e.symm
    simp [locate, hne, ih h.2]

theorem locate_of_mem {key : Str} {l : List lru_node} (h : key ∈ chainKeys l) :
    ∃ pre n post, locate key l = some (pre, n, post) := by
  induction l with
  | nil => simp at h
  | cons a rest ih =>
    by_cases hk : a.key = key
    · exact ⟨[], a, rest, by simp [locate, hk]⟩
    · simp only [chainKeys_cons, List.mem_cons] at h
      rcases h with h | h
      · exact absurd h.symm hk
      · obtain ⟨pre, n, post, hl⟩ := ih h
        exact ⟨a :: pre, n, post, by simp [locate, hk, hl]⟩

theorem locate_none {key : Str} {l : List lru_node} (h : key ∉ chainKeys l) :
    locate key l = none := by
  cases hl : locate key l with
  | none => rfl
  | some r =>
    obtain ⟨pre, n, post⟩ := r
    obtain ⟨h1, h2, -⟩ := locate_some hl
    exact absurd (by simp [h1, h2]) h

/-! `PutToTail` and `Delete` on the chain -/

theorem PutToTail_eq (pre : List lru_node) (node : lru_node) (post : List lru_node) :
    PutToTail pre node post = pre ++ post ++ [node] := by
  cases pre <;> cases post <;> simp [PutToTail]

theorem Delete_absent {s : SimpleLRU} {key : Str} (h : key ∉ s._lru_index) :
    Delete s key = some (false, s) := by
  simp [Delete, h]

theorem Delete_present {s : SimpleLRU} {key : Str} {pre post : List lru_node}
    {node : lru_node} (h : key ∈ s._lru_index)
    (hl : locate key s._lru_head = some (pre, node, post)) :
    Delete s key = some (true,
      { s with
        _lru_index := s._lru_index.erase key
        _current_size := size_sub s._current_size (nodeSize node)
        _lru_head := pre ++ post }) := by
  cases pre <;> cases post <;> simp [Delete, h, hl, nodeSize]

theorem size_sub_of_le {a b : Nat} (h : b ≤ a) : size_sub a b = a - b := by
  simp [size_sub, h]


/-! `Delete` preserves well-formedness -/

theorem WF_remove {s : SimpleLRU} {pre post : List lru_node} {node : lru_node}
    (hwf : WF s) (hc : s._lru_head = pre ++ node :: post) :
    WF { s with
      _lru_index := s._lru_index.erase node.key
      _current_size := size_sub s._current_size (nodeSize node)
      _lru_head := pre ++ post } := by
  obtain ⟨h1, h2, h3, h4, h5⟩ := hwf
  rw [hc] at h1 h3 h4
  simp only [sumSizes_append, sumSizes_cons] at h1
  simp only [chainKeys_append, chainKeys_cons] at h3 h4
  have hle : nodeSize node ≤ s._current_size := by omega
  have hnd := List.nodup_cons.mp (List.nodup_middle.mp h4)
  refine ⟨?_, ?_, ?_, ?_, ?_⟩
  · simp only [sumSizes_append, size_sub_of_le hle]; omega
  · simp only [size_sub_of_le hle]; omega
  · intro k
    simp only [chainKeys_append, List.Nodup.mem_erase_iff h5, h3, List.mem_append,
      List.mem_cons]
    have hnot : node.key ∉ chainKeys pre ++ chainKeys post := hnd.1
    simp only [List.mem_append, not_or] at hnot
    constructor
    · rintro ⟨hne, h | h | h⟩
      · exact Or.inl h
      · exact absurd h hne
      · exact Or.inr h
    · rintro (h | h)
      · exact ⟨fun e => hnot.1 (e ▸ h), Or.inl h⟩
      · exact ⟨fun e => hnot.2 (e ▸ h), Or.inr (Or.inr h)⟩
  · simpa using hnd.2
  · exact h5.erase _

theorem Delete_head {s : SimpleLRU} {head : lru_node} {rest : List lru_node}
    (hc : s._lru_head = head :: rest) (hk : head.key ∈ s._lru_index) :
    Delete s head.key = some (true,
      { s with
        _lru_index := s._lru_index.erase head.key
        _current_size := size_sub s._current_size (nodeSize head)
        _lru_head := rest }) := by
  have hl : locate head.key s._lru_head = some ([], head, rest) := by
    rw [hc]; simp [locate]
  simpa using Delete_present hk hl

theorem WF_head_mem {s : SimpleLRU} {head : lru_node} {rest : List lru_node}
    (hwf : WF s) (hc : s._lru_head = head :: rest) : head.key ∈ s._lru_index := by
  rw [hwf.2.2.1, hc]; simp

theorem WF_head_size {s : SimpleLRU} {head : lru_node} {rest : List lru_node}
    (hwf : WF s) (hc : s._lru_head = head :: rest) :
    nodeSize head + sumSizes rest ≤ s._current_size := by
  have := hwf.1
  rw [hc] at this
  simpa using this

theorem size_add_of_lt {a b : Nat} (h : a + b < SIZE_MOD) : size_add a b = a + b := by
  simp [size_add, Nat.mod_eq_of_lt h]

theorem size_add_le (a b : Nat) : size_add a b ≤ a + b := by
  simp only [size_add]
  exact Nat.mod_le _ _

theorem size_add_lt (a b : Nat) : size_add a b < SIZE_MOD := by
  simp only [size_add]
  exact Nat.mod_lt _ (by simp [SIZE_MOD])

theorem ClearLoop_spec (fuel : Nat) (s : SimpleLRU) (size : Nat) (s1 : SimpleLRU)
    (hwf : WF s) (hnw : s._current_size + size < SIZE_MOD)
    (h : ClearLoop fuel s size = some s1) :
    WF s1 ∧ s1._max_size = s._max_size ∧ s1._current_size + size ≤ s._max_size ∧
    ∃ n, s1._lru_head = s._lru_head.drop n ∧
      s1._current_size + sumSizes (s._lru_head.take n) = s._current_size ∧
      ∀ m, m < n → s._max_size < s._current_size - sumSizes (s._lru_head.take m) + size := by
  induction fuel generalizing s with
  | zero => simp [ClearLoop] at h
  | succ fuel ih =>
    unfold ClearLoop at h
    rw [size_add_of_lt hnw] at h
    by_cases hcond : s._current_size + size > s._max_size
    · simp only [hcond, if_true] at h
      cases hc : s._lru_head with
      | nil => simp [hc] at h
      | cons head rest =>
        simp only [hc] at h
        have hk := WF_head_mem hwf hc
        have hsz := WF_head_size hwf hc
        rw [Delete_head hc hk] at h
        have hwf1 := @WF_remove s [] rest head hwf (by simpa using hc)
        simp only [List.nil_append] at hwf1
        have hle : nodeSize head ≤ s._current_size := by omega
        have hnw1 : size_sub s._current_size (nodeSize head) + size < SIZE_MOD := by
          rw [size_sub_of_le hle]; omega
        obtain ⟨g1, g2, g3, n, g4, g5, g6⟩ := ih _ hwf1 hnw1 h
        simp only [size_sub_of_le hle] at g5 g6
        refine ⟨g1, g2, g3, n + 1, ?_, ?_, ?_⟩
        · simpa using g4
        · simp only [List.take_succ_cons, sumSizes_cons]
          omega
        · intro m hm
          cases m with
          | zero => simpa using hcond
          | succ m =>
            have := g6 m (by omega)
            simp only [List.take_succ_cons, sumSizes_cons]
            omega
    · simp only [hcond, if_false, Option.some.injEq] at h
      subst h
      exact ⟨hwf, rfl, by omega, 0, by simp, by simp, by simp⟩

theorem ClearLoop_keep (fuel : Nat) (s : SimpleLRU) (size : Nat) (s1 : SimpleLRU)
    (front back : List lru_node) (hwf : WF s)
    (hex : s._current_size = sumSizes s._lru_head)
    (hc : s._lru_head = front ++ back) (hback : sumSizes back + size ≤ s._max_size)
    (h : ClearLoop fuel s size = some s1) :
    ∃ n, n ≤ front.length ∧ s1._lru_head = s._lru_head.drop n ∧ WF s1 ∧
      s1._current_size = sumSizes s1._lru_head ∧ s1._max_size = s._max_size ∧
      s1._current_size + sumSizes (s._lru_head.take n) = s._current_size := by
  induction fuel generalizing s front with
  | zero => simp [ClearLoop] at h
  | succ fuel ih =>
    unfold ClearLoop at h
    by_cases hcond : size_add s._current_size size > s._max_size
    · simp only [hcond, if_true] at h
      cases front with
      | nil =>
        exfalso
        rw [hc, List.nil_append] at hex
        have := size_add_le s._current_size size
        omega
      | cons head front1 =>
        have hc1 : s._lru_head = head :: (front1 ++ back) := by simpa using hc
        simp only [hc1] at h
        have hk := WF_head_mem hwf hc1
        rw [Delete_head hc1 hk] at h
        have hwf1 := @WF_remove s [] (front1 ++ back) head hwf (by simpa using hc1)
        simp only [List.nil_append] at hwf1
        have hsum : s._current_size = nodeSize head + sumSizes (front1 ++ back) := by
          rw [hex, hc1, sumSizes_cons]
        have hle : nodeSize head ≤ s._current_size := by omega
        rw [size_sub_of_le hle] at h hwf1
        obtain ⟨n, g1, g2, g3, g4, g5, g6⟩ :=
          ih _ front1 hwf1 (by simp only; omega) rfl hback h
        refine ⟨n + 1, by simpa using g1, ?_, g3, g4, g5, ?_⟩
        · rw [hc1]; simpa using g2
        · rw [hc1]
          simp only [List.take_succ_cons, sumSizes_cons]
          simp only at g6
          omega
    · simp only [hcond, if_false, Option.some.injEq] at h
      subst h
      exact ⟨0, by omega, by simp, hwf, hex, rfl, by simp⟩

theorem ClearLoop_total (fuel : Nat) (s : SimpleLRU) (size : Nat) (hwf : WF s)
    (hex : s._current_size = sumSizes s._lru_head) (hsize : size ≤ s._max_size)
    (hfuel : s._lru_head.length < fuel) : ∃ s1, ClearLoop fuel s size = some s1 := by
  induction fuel generalizing s with
  | zero => omega
  | succ fuel ih =>
    unfold ClearLoop
    by_cases hcond : size_add s._current_size size > s._max_size
    · simp only [hcond, if_true]
      cases hc : s._lru_head with
      | nil =>
        rw [hc] at hex
        simp only [sumSizes_nil] at hex
        have := size_add_le s._current_size size
        omega
      | cons head rest =>
        have hk := WF_head_mem hwf hc
        simp only [Delete_head hc hk]
        have hwf1 := @WF_remove s [] rest head hwf (by simpa using hc)
        simp only [List.nil_append] at hwf1
        apply ih _ hwf1
        · rw [hc] at hex
          simp only [sumSizes_cons] at hex
          simp only [size_sub_of_le (show nodeSize head ≤ s._current_size by omega)]
          omega
        · exact hsize
        · rw [hc] at hfuel
          simp only [List.length_cons] at hfuel
          simp only
          omega
    · simp [hcond]

theorem ClearLoop_fuel (fuel : Nat) (s : SimpleLRU) (size : Nat)
    (hfuel : s._lru_head.length < fuel) :
    ClearLoop fuel s size = ClearLoop (s._lru_head.length + 1) s size := by
  induction fuel generalizing s with
  | zero => omega
  | succ fuel ih =>
    unfold ClearLoop
    by_cases hcond : size_add s._current_size size > s._max_size
    · simp only [hcond, if_true]
      cases hc : s._lru_head with
      | nil => rfl
      | cons head rest =>
        simp only [List.length_cons]
        by_cases hk : head.key ∈ s._lru_index
        · simp only [Delete_head hc hk]
          rw [hc] at hfuel
          simp only [List.length_cons] at hfuel
          exact ih _ (by simpa using hfuel)
        · simp only [Delete_absent hk]
    · simp only [hcond, if_false]

theorem ClearLoop_exit (fuel : Nat) (s : SimpleLRU) (size : Nat) (s1 : SimpleLRU)
    (h : ClearLoop fuel s size = some s1) :
    size_add s1._current_size size ≤ s1._max_size := by
  induction fuel generalizing s with
  | zero => simp [ClearLoop] at h
  | succ fuel ih =>
    unfold ClearLoop at h
    by_cases hcond : size_add s._current_size size > s._max_size
    · simp only [hcond, if_true] at h
      cases hc : s._lru_head with
      | nil => simp [hc] at h
      | cons head rest =>
        simp only [hc] at h
        by_cases hk : head.key ∈ s._lru_index
        · rw [Delete_head hc hk] at h
          exact ih _ h
        · rw [Delete_absent hk] at h
          simp at h
    · simp only [hcond, if_false, Option.some.injEq] at h
      subst h
      omega

theorem Clear_oversized {s : SimpleLRU} {size : Nat} (h : size > s._max_size) :
    Clear s size = some (false, s) := by
  simp [Clear, h]

theorem Clear_loop {s s1 : SimpleLRU} {size : Nat} {b : Bool}
    (hsize : size ≤ s._max_size) (h : Clear s size = some (b, s1)) :
    b = true ∧ ClearLoop (s._lru_head.length + 1) s size = some s1 := by
  unfold Clear at h
  simp only [show ¬ size > s._max_size by omega, if_false] at h
  cases hl : ClearLoop (s._lru_head.length + 1) s size with
  | none => simp [hl] at h
  | some s2 =>
    simp only [hl, Option.some.injEq, Prod.mk.injEq] at h
    obtain ⟨rfl, rfl⟩ := h
    exact ⟨rfl, rfl⟩

theorem Clear_spec {s s1 : SimpleLRU} {size : Nat} {b : Bool} (hwf : WF s)
    (hsize : size ≤ s._max_size) (hnw : s._current_size + size < SIZE_MOD)
    (h : Clear s size = some (b, s1)) :
    b = true ∧ WF s1 ∧ s1._max_size = s._max_size ∧
    s1._current_size + size ≤ s._max_size ∧
    ∃ n, s1._lru_head = s._lru_head.drop n ∧
      s1._current_size + sumSizes (s._lru_head.take n) = s._current_size ∧
      ∀ m, m < n → s._max_size < s._current_size - sumSizes (s._lru_head.take m) + size := by
  obtain ⟨hb, hl⟩ := Clear_loop hsize h
  exact ⟨hb, ClearLoop_spec _ _ _ _ hwf hnw hl⟩

theorem Clear_keep {s s1 : SimpleLRU} {size : Nat} {b : Bool}
    (front back : List lru_node) (hwf : WF s)
    (hex : s._current_size = sumSizes s._lru_head)
    (hc : s._lru_head = front ++ back) (hback : sumSizes back + size ≤ s._max_size)
    (h : Clear s size = some (b, s1)) :
    ∃ n, n ≤ front.length ∧ s1._lru_head = s._lru_head.drop n ∧ WF s1 ∧
      s1._current_size = sumSizes s1._lru_head ∧ s1._max_size = s._max_size ∧
      s1._current_size + sumSizes (s._lru_head.take n) = s._current_size := by
  obtain ⟨-, hl⟩ := Clear_loop (show size ≤ s._max_size by omega) h
  exact ClearLoop_keep _ _ _ _ front back hwf hex hc hback hl

theorem Clear_total {s : SimpleLRU} {size : Nat} (hwf : WF s)
    (hex : s._current_size = sumSizes s._lru_head) (hsize : size ≤ s._max_size) :
    ∃ s1, Clear s size = some (true, s1) := by
  obtain ⟨s1, h1⟩ := ClearLoop_total (s._lru_head.length + 1) s size hwf hex hsize (by omega)
  exact ⟨s1, by simp [Clear, show ¬ size > s._max_size by omega, h1]⟩

/-! Reordering the chain -/

theorem middle_perm (pre : List lru_node) (node : lru_node) (post : List lru_node) :
    (pre ++ post ++ [node]).Perm (pre ++ node :: post) := by
  have h1 : (pre ++ post ++ [node]).Perm (node :: (pre ++ post)) :=
    List.perm_append_singleton node (pre ++ post)
  exact h1.trans List.perm_middle.symm

theorem sumSizes_perm {l₁ l₂ : List lru_node} (h : l₁.Perm l₂) :
    sumSizes l₁ = sumSizes l₂ :=
  (h.map nodeSize).sum_eq

theorem chainKeys_perm {l₁ l₂ : List lru_node} (h : l₁.Perm l₂) :
    (chainKeys l₁).Perm (chainKeys l₂) :=
  h.map _

theorem WF_perm {s : SimpleLRU} {chain : List lru_node} (hwf : WF s)
    (hp : chain.Perm s._lru_head) : WF { s with _lru_head := chain } := by
  obtain ⟨h1, h2, h3, h4, h5⟩ := hwf
  refine ⟨?_, h2, ?_, ?_, h5⟩
  · simpa [sumSizes_perm hp] using h1
  · intro k
    rw [h3]
    exact ((chainKeys_perm hp).mem_iff).symm
  · exact ((chainKeys_perm hp).nodup_iff).mpr h4

theorem Inv3_iff (s : SimpleLRU) :
    Inv3 s ↔ WF s ∧ s._current_size = sumSizes s._lru_head := by
  unfold Inv3 WF
  constructor
  · rintro ⟨h1, h2, h3, h4, h5, h6⟩
    exact ⟨⟨by omega, h2, fun k => ⟨h3 k, h4 k⟩, h5, h6⟩, h1⟩
  · rintro ⟨⟨-, h2, h3, h4, h5⟩, h1⟩
    exact ⟨h1, h2, fun k hk => (h3 k).mp hk, fun k hk => (h3 k).mpr hk, h4, h5⟩

/-! `Get` -/

theorem Get_absent {s : SimpleLRU} {key : Str} (value : Str) (h : key ∉ s._lru_index) :
    Get s key value = some (false, value, s) := by
  simp [Get, h]

theorem Get_present {s : SimpleLRU} {key : Str} {pre post : List lru_node}
    {node : lru_node} (value : Str) (h : key ∈ s._lru_index)
    (hl : locate key s._lru_head = some (pre, node, post)) :
    Get s key value =
      some (true, node.value, { s with _lru_head := pre ++ post ++ [node] }) := by
  simp [Get, h, hl, PutToTail_eq]

theorem SimplePut_eq {s s1 : SimpleLRU} {key value : Str} {b : Bool}
    (h : Clear s (key.length + value.length) = some (b, s1)) :
    SimplePut s key value = some
      { s1 with
        _lru_index := if key ∈ s1._lru_index then s1._lru_index else key :: s1._lru_index
        _current_size := size_add s1._current_size (key.length + value.length)
        _lru_head := s1._lru_head ++ [{ key := key, value := value }] } := by
  unfold SimplePut
  rw [h]
  cases hc : s1._lru_head <;> simp [hc]

theorem mem_of_mem_drop_keys {k : Str} {n : Nat} {l : List lru_node}
    (h : k ∈ chainKeys (l.drop n)) : k ∈ chainKeys l := by
  obtain ⟨x, hx, rfl⟩ := mem_chainKeys.mp h
  exact mem_chainKeys.mpr ⟨x, List.mem_of_mem_drop hx, rfl⟩

theorem SimplePut_WF {s s2 : SimpleLRU} {key value : Str} (hwf : WF s)
    (hsize : key.length + value.length ≤ s._max_size) (hk : key ∉ s._lru_index)
    (hnw : s._current_size + (key.length + value.length) < SIZE_MOD)
    (h : SimplePut s key value = some s2) : WF s2 ∧ s2._max_size = s._max_size := by
  cases hcl : Clear s (key.length + value.length) with
  | none => simp [SimplePut, hcl] at h
  | some r =>
    obtain ⟨b, s1⟩ := r
    rw [SimplePut_eq hcl, Option.some.injEq] at h
    obtain ⟨-, ⟨g1, g2, g3, g4, g5⟩, hmax, hroom, n, hdrop, hcur, -⟩ :=
      Clear_spec hwf hsize hnw hcl
    rw [size_add_of_lt (show s1._current_size + (key.length + value.length) < SIZE_MOD
      by omega)] at h
    have hk1 : key ∉ s1._lru_index := by
      intro hmem
      rw [g3, hdrop] at hmem
      exact hk ((hwf.2.2.1 key).mpr (mem_of_mem_drop_keys hmem))
    have hk2 : key ∉ chainKeys s1._lru_head := fun hmem => hk1 ((g3 key).mpr hmem)
    rw [← h]
    refine ⟨⟨?_, ?_, ?_, ?_, ?_⟩, hmax⟩
    · simp only [sumSizes_append, sumSizes_cons, sumSizes_nil, nodeSize]; omega
    · simp only; omega
    · intro k
      simp only [hk1, if_false, List.mem_cons, chainKeys_append, chainKeys_cons,
        chainKeys_nil, List.mem_append, List.mem_singleton, g3, List.not_mem_nil,
        or_false]
      exact or_comm
    · simp only [chainKeys_append, chainKeys_cons, chainKeys_nil]
      rw [List.nodup_append]
      refine ⟨g4, by simp, ?_⟩
      intro a ha hb
      simp only [List.mem_singleton] at hb
      exact hk2 (hb ▸ ha)
    · simp only [hk1, if_false]
      exact List.nodup_cons.mpr ⟨hk1, g5⟩


/-! `Set` -/

theorem assignValue_some {key value : Str} {l l1 : List lru_node}
    (h : assignValue key value l = some l1) :
    ∃ pre n post, l = pre ++ n :: post ∧ n.key = key ∧ key ∉ chainKeys pre ∧
      l1 = pre ++ { n with value := value } :: post := by
  induction l generalizing l1 with
  | nil => simp [assignValue] at h
  | cons a rest ih =>
    unfold assignValue at h
    by_cases hk : a.key = key
    · simp only [hk, if_true, Option.some.injEq] at h
      exact ⟨[], a, rest, by simp, hk, by simp, by rw [← h]; simp [hk]⟩
    · simp only [hk, if_false] at h
      cases hr : assignValue key value rest with
      | none => simp [hr] at h
      | some r =>
        simp only [hr, Option.some.injEq] at h
        obtain ⟨pre, n, post, g1, g2, g3, g4⟩ := ih hr
        refine ⟨a :: pre, n, post, by simp [g1], g2, ?_, by simp [← h, g4]⟩
        simp only [chainKeys_cons, List.mem_cons, not_or]
        exact ⟨fun e => hk e.symm, g3⟩

theorem assignValue_append {pre post : List lru_node} {n : lru_node} (value : Str)
    (h : n.key ∉ chainKeys pre) :
    assignValue n.key value (pre ++ n :: post) =
      some (pre ++ { n with value := value } :: post) := by
  induction pre with
  | nil => simp [assignValue]
  | cons a rest ih =>
    simp only [chainKeys_cons, List.mem_cons, not_or] at h
    have hne : ¬ a.key = n.key := fun e => h.1 e.symm
    simp [assignValue, hne, ih h.2]

theorem assignValue_none {key value : Str} {l : List lru_node}
    (h : key ∉ chainKeys l) : assignValue key value l = none := by
  induction l with
  | nil => rfl
  | cons a rest ih =>
    simp only [chainKeys_cons, List.mem_cons, not_or] at h
    have hne : ¬ a.key = key := fun e => h.1 e.symm
    simp [assignValue, hne, ih h.2]

theorem Set_oversized {s : SimpleLRU} {key value : Str}
    (h : key.length + value.length > s._max_size) :
    Set s key value = some (false, s) := by
  simp [Set, h]

theorem Set_absent {s : SimpleLRU} {key value : Str} (h : key ∉ s._lru_index) :
    Set s key value = some (false, s) := by
  unfold Set
  split
  · rfl
  · simp [h]

theorem Set_present {s : SimpleLRU} {key value : Str} {pre post : List lru_node}
    {node : lru_node} (hsize : key.length + value.length ≤ s._max_size)
    (hk : key ∈ s._lru_index) (hl : locate key s._lru_head = some (pre, node, post)) :
    Set s key value =
      match Clear { s with _lru_head := pre ++ post ++ [node] }
          (value.length - node.value.length) with
      | none => none
      | some (_, s2) =>
        match assignValue key value s2._lru_head with
        | none => none
        | some chain =>
          some (true,
            { s2 with
              _current_size := size_add s2._current_size (value.length - node.value.length)
              _lru_head := chain }) := by
  have hfree : (if value.length > node.value.length
      then value.length - node.value.length else 0) = value.length - node.value.length := by
    split <;> omega
  unfold Set
  simp only [show ¬ key.length + value.length > s._max_size by omega, if_false, hk,
    not_true_eq_false, hl, PutToTail_eq, hfree]

theorem Set_false {s s1 : SimpleLRU} {key value : Str}
    (h : Set s key value = some (false, s1)) :
    s1 = s ∧ (key.length + value.length > s._max_size ∨ key ∉ s._lru_index) := by
  by_cases hsize : key.length + value.length > s._max_size
  · rw [Set_oversized hsize] at h
    simp only [Option.some.injEq, Prod.mk.injEq, true_and] at h
    exact ⟨h.symm, Or.inl hsize⟩
  by_cases hk : key ∈ s._lru_index
  swap
  · rw [Set_absent hk] at h
    simp only [Option.some.injEq, Prod.mk.injEq, true_and] at h
    exact ⟨h.symm, Or.inr hk⟩
  exfalso
  cases hl : locate key s._lru_head with
  | none => simp [Set, hsize, hk, hl] at h
  | some r =>
    obtain ⟨pre, node, post⟩ := r
    rw [Set_present (by omega) hk hl] at h
    split at h
    · exact absurd h (by simp)
    · split at h
      · exact absurd h (by simp)
      · simp at h

/-! `Put` and `PutIfAbsent` -/

theorem Put_oversized {s : SimpleLRU} {key value : Str}
    (h : key.length + value.length > s._max_size) :
    Put s key value = some (false, s) := by
  simp [Put, h]

theorem Put_absent {s : SimpleLRU} {key value : Str}
    (hsize : key.length + value.length ≤ s._max_size) (hk : key ∉ s._lru_index) :
    Put s key value =
      match SimplePut s key value with
      | none => none
      | some s2 => some (true, s2) := by
  unfold Put
  simp only [show ¬ key.length + value.length > s._max_size by omega, if_false,
    Set_absent hk]

theorem PutIfAbsent_oversized {s : SimpleLRU} {key value : Str}
    (h : key.length + value.length > s._max_size) :
    PutIfAbsent s key value = some (false, s) := by
  simp [PutIfAbsent, h]

theorem PutIfAbsent_present {s : SimpleLRU} {key value : Str}
    (hk : key ∈ s._lru_index) : PutIfAbsent s key value = some (false, s) := by
  unfold PutIfAbsent
  split
  · rfl
  · simp [hk]

theorem PutIfAbsent_absent {s : SimpleLRU} {key value : Str}
    (hsize : key.length + value.length ≤ s._max_size) (hk : key ∉ s._lru_index) :
    PutIfAbsent s key value =
      match SimplePut s key value with
      | none => none
      | some s2 => some (true, s2) := by
  unfold PutIfAbsent
  simp only [show ¬ key.length + value.length > s._max_size by omega, if_false, hk,
    not_false_eq_true, if_true]

theorem SimplePut_returns {s : SimpleLRU} {key value : Str} (hinv : Inv3 s)
    (hsize : key.length + value.length ≤ s._max_size) :
    ∃ n s2, SimplePut s key value = some s2 ∧ n ≤ s._lru_head.length ∧
      s2._lru_head = s._lru_head.drop n ++ [{ key := key, value := value }] ∧
      key ∈ s2._lru_index ∧ s2._max_size = s._max_size := by
  obtain ⟨hwf, hex⟩ := (Inv3_iff s).mp hinv
  obtain ⟨s1, hcl⟩ := Clear_total hwf hex hsize
  obtain ⟨n, hn, hdrop, -, -, hmax, -⟩ :=
    Clear_keep s._lru_head [] hwf hex (by simp) (by simpa using hsize) hcl
  refine ⟨n, _, SimplePut_eq hcl, by simpa using hn, ?_, ?_, hmax⟩
  · simp only [hdrop]
  · simp only
    split
    · assumption
    · exact List.mem_cons_self _ _

theorem SimplePut_Inv3 {s : SimpleLRU} {key value : Str} (hinv : Inv3 s)
    (hk : key ∉ s._lru_index) (hsize : key.length + value.length ≤ s._max_size)
    (hmem : s._current_size + (key.length + value.length) < SIZE_MOD) :
    ∃ n s2, SimplePut s key value = some s2 ∧ n ≤ s._lru_head.length ∧
      s2._lru_head = s._lru_head.drop n ++ [{ key := key, value := value }] ∧
      s._current_size - sumSizes (s._lru_head.take n) + (key.length + value.length)
        ≤ s._max_size ∧
      (∀ m, m < n → s._max_size <
        s._current_size - sumSizes (s._lru_head.take m) + (key.length + value.length)) ∧
      s2._current_size =
        s._current_size - sumSizes (s._lru_head.take n) + (key.length + value.length) ∧
      s2._max_size = s._max_size ∧ Inv3 s2 := by
  obtain ⟨hwf, hex⟩ := (Inv3_iff s).mp hinv
  obtain ⟨s1, hcl⟩ := Clear_total hwf hex hsize
  obtain ⟨-, hwf1, hmax, hroom, n, hdrop, hcur, hmin⟩ := Clear_spec hwf hsize hmem hcl
  have hsp := SimplePut_eq hcl
  obtain ⟨hwf2, hmax2⟩ := SimplePut_WF hwf hsize hk hmem hsp
  rw [size_add_of_lt (show s1._current_size + (key.length + value.length) < SIZE_MOD
    by omega)] at hsp hwf2
  have hsplit := sumSizes_take_add_drop n s._lru_head
  refine ⟨n, _, hsp, ?_, ?_, ?_, hmin, ?_, hmax2, ?_⟩
  · by_contra hn
    have := hmin s._lru_head.length (by omega)
    rw [List.take_length, ← hex] at this
    omega
  · simp only [hdrop]
  · omega
  · simp only; omega
  · refine (Inv3_iff _).mpr ⟨hwf2, ?_⟩
    simp only [hdrop, sumSizes_append, sumSizes_cons, sumSizes_nil, nodeSize]
    omega

theorem Put_false {s s1 : SimpleLRU} {key value : Str}
    (h : Put s key value = some (false, s1)) : key.length + value.length > s._max_size := by
  by_contra hsize
  unfold Put at h
  simp only [hsize, if_false] at h
  cases hset : Set s key value with
  | none => simp [hset] at h
  | some r =>
    obtain ⟨b1, s2⟩ := r
    cases b1 with
    | true => simp [hset] at h
    | false =>
      simp only [hset] at h
      cases hsp : SimplePut s2 key value with
      | none => simp [hsp] at h
      | some s3 => simp [hsp] at h

/-! Overwriting under exact accounting -/

theorem Set_returns {s : SimpleLRU} {key value : Str} {pre post : List lru_node}
    {node : lru_node} (hinv : Inv3 s) (hk : key ∈ s._lru_index)
    (hsize : key.length + value.length ≤ s._max_size)
    (hl : locate key s._lru_head = some (pre, node, post)) :
    ∃ n s2, n ≤ (pre ++ post).length ∧ WF s2 ∧
      s2._lru_head = (pre ++ post).drop n ++ [node] ∧
      s2._current_size = sumSizes s2._lru_head ∧ s2._max_size = s._max_size ∧
      s2._current_size + sumSizes ((pre ++ post).take n) = s._current_size ∧
      size_add s2._current_size (value.length - node.value.length) ≤ s2._max_size ∧
      Set s key value = some (true,
        { s2 with
          _current_size := size_add s2._current_size (value.length - node.value.length)
          _lru_head := (pre ++ post).drop n ++ [{ key := key, value := value }] }) := by
  obtain ⟨hwf, hex⟩ := (Inv3_iff s).mp hinv
  obtain ⟨hc, hkey, -⟩ := locate_some hl
  have hperm := middle_perm pre node post
  have hwf1 : WF { s with _lru_head := pre ++ post ++ [node] } :=
    WF_perm hwf (hc ▸ hperm)
  have hsum : sumSizes s._lru_head = sumSizes (pre ++ post) + nodeSize node := by
    rw [hc]; simp only [sumSizes_append, sumSizes_cons]; omega
  have hns : nodeSize node = key.length + node.value.length := by
    simp only [nodeSize, hkey]
  have hcurmax : s._current_size ≤ s._max_size := hwf.2.1
  have hex1 : ({ s with _lru_head := pre ++ post ++ [node] } : SimpleLRU)._current_size =
      sumSizes ({ s with _lru_head := pre ++ post ++ [node] } : SimpleLRU)._lru_head := by
    simp only [sumSizes_append (pre ++ post), sumSizes_cons, sumSizes_nil]
    omega
  have hfree : value.length - node.value.length ≤ s._max_size := by omega
  obtain ⟨s2, hcl⟩ := Clear_total hwf1 hex1 hfree
  obtain ⟨n, hn, hdrop0, hwf2, hex2, hmax0, hcur0⟩ :=
    Clear_keep (pre ++ post) [node] hwf1 hex1 rfl
      (by simp only [sumSizes_cons, sumSizes_nil]; omega) hcl
  have hmax : s2._max_size = s._max_size := hmax0
  have hdrop : s2._lru_head = (pre ++ post ++ [node]).drop n := hdrop0
  have hcur : s2._current_size + sumSizes ((pre ++ post ++ [node]).take n) =
      s._current_size := hcur0
  rw [List.drop_append_of_le_length hn] at hdrop
  rw [List.take_append_of_le_length hn] at hcur
  have hnd : (chainKeys (pre ++ post ++ [node])).Nodup := hwf1.2.2.2.1
  have hnotin : node.key ∉ chainKeys ((pre ++ post).drop n) := by
    intro hmem
    rw [chainKeys_append, chainKeys_cons, chainKeys_nil, List.nodup_append] at hnd
    exact hnd.2.2 (mem_of_mem_drop_keys hmem) (by simp)
  have hassign := @assignValue_append ((pre ++ post).drop n) [] node value hnotin
  rw [hkey] at hassign
  have hexit := ClearLoop_exit _ _ _ _
    (Clear_loop (show value.length - node.value.length ≤
      ({ s with _lru_head := pre ++ post ++ [node] } : SimpleLRU)._max_size from hfree)
      hcl).2
  refine ⟨n, s2, hn, hwf2, hdrop, hex2, hmax, hcur, hexit, ?_⟩
  rw [Set_present hsize hk hl, hcl]
  simp only [hdrop, hassign, hkey]

theorem Set_Inv3 {s : SimpleLRU} {key value : Str} {pre post : List lru_node}
    {node : lru_node} (hinv : Inv3 s) (hk : key ∈ s._lru_index)
    (hsize : key.length + value.length ≤ s._max_size)
    (hl : locate key s._lru_head = some (pre, node, post))
    (hmem : s._current_size + (value.length - node.value.length) < SIZE_MOD) :
    ∃ n s3, Set s key value = some (true, s3) ∧ n ≤ (pre ++ post).length ∧
      s3._lru_head = (pre ++ post).drop n ++ [{ key := key, value := value }] ∧
      s3._current_size + sumSizes ((pre ++ post).take n) =
        s._current_size + (value.length - node.value.length) ∧
      s3._max_size = s._max_size ∧ WF s3 ∧
      (node.value.length ≤ value.length → s3._current_size = sumSizes s3._lru_head) := by
  obtain ⟨hwf, hex⟩ := (Inv3_iff s).mp hinv
  obtain ⟨hc, hkey, -⟩ := locate_some hl
  obtain ⟨n, s2, hn, hwf2, hdrop, hex2, hmax, hcur, hroom, hset⟩ :=
    Set_returns hinv hk hsize hl
  rw [size_add_of_lt (show s2._current_size + (value.length - node.value.length) <
    SIZE_MOD by omega)] at hset
  have hsum : sumSizes s._lru_head = sumSizes (pre ++ post) + nodeSize node := by
    rw [hc]; simp only [sumSizes_append, sumSizes_cons]; omega
  have hns : nodeSize node = key.length + node.value.length := by
    simp only [nodeSize, hkey]
  have hcurmax : s._current_size ≤ s._max_size := hwf.2.1
  have hsplit := sumSizes_take_add_drop n (pre ++ post)
  have hexit : size_add s2._current_size (value.length - node.value.length) ≤
      s2._max_size := hroom
  rw [size_add_of_lt (show s2._current_size + (value.length - node.value.length) <
    SIZE_MOD by omega)] at hexit
  have hex2n : s2._current_size = sumSizes ((pre ++ post).drop n) + nodeSize node := by
    rw [hex2, hdrop]
    simp only [sumSizes_append (List.drop n (pre ++ post)), sumSizes_cons, sumSizes_nil]
    omega
  obtain ⟨-, -, g3, g4, g5⟩ := hwf2
  have hkeys : chainKeys ((pre ++ post).drop n ++ [{ key := key, value := value }]) =
      chainKeys s2._lru_head := by
    rw [hdrop]
    simp only [chainKeys_append, chainKeys_cons, chainKeys_nil, hkey]
  have hwf3 : WF { s2 with
      _current_size := s2._current_size + (value.length - node.value.length)
      _lru_head := (pre ++ post).drop n ++ [{ key := key, value := value }] } := by
    refine ⟨?_, ?_, ?_, ?_, g5⟩
    · simp only [sumSizes_append (List.drop n (pre ++ post)), sumSizes_cons, sumSizes_nil,
        nodeSize]
      omega
    · simp only; omega
    · intro k
      simp only [hkeys]
      exact g3 k
    · simp only [hkeys]
      exact g4
  refine ⟨n, _, hset, hn, rfl, ?_, hmax, hwf3, ?_⟩
  · simp only; omega
  · intro hgrow
    simp only [sumSizes_append (List.drop n (pre ++ post)), sumSizes_cons, sumSizes_nil,
      nodeSize]
    omega

/-! Counting the iterations of the eviction loop -/

theorem ClearLoop_steps (fuel : Nat) (s : SimpleLRU) (size : Nat) (s1 : SimpleLRU)
    (h : ClearLoop fuel s size = some s1) :
    ∃ n, n < fuel ∧ n ≤ s._lru_head.length ∧ s1._lru_head = s._lru_head.drop n ∧
      s1._lru_head.length + n = s._lru_head.length ∧
      ClearLoop (n + 1) s size = some s1 := by
  induction fuel generalizing s with
  | zero => simp [ClearLoop] at h
  | succ fuel ih =>
    unfold ClearLoop at h
    by_cases hcond : size_add s._current_size size > s._max_size
    · simp only [hcond, if_true] at h
      cases hc : s._lru_head with
      | nil => simp [hc] at h
      | cons head rest =>
        simp only [hc] at h
        by_cases hk : head.key ∈ s._lru_index
        · rw [Delete_head hc hk] at h
          obtain ⟨n, g1, g2, g3, g4, g5⟩ := ih _ h
          refine ⟨n + 1, by omega, ?_, ?_, ?_, ?_⟩
          · simpa using g2
          · simpa using g3
          · simp only [List.length_cons]
            simp only at g4
            omega
          · rw [ClearLoop]
            simp only [hcond, if_true, hc, Delete_head hc hk]
            exact g5
        · rw [Delete_absent hk] at h
          simp at h
    · simp only [hcond, if_false, Option.some.injEq] at h
      subst h
      refine ⟨0, by omega, by omega, by simp, by simp, ?_⟩
      unfold ClearLoop
      simp [hcond]

/-! Removal and lookup under exact accounting -/

theorem Delete_Inv3 {s : SimpleLRU} {key : Str} {pre post : List lru_node}
    {node : lru_node} (hinv : Inv3 s) (hk : key ∈ s._lru_index)
    (hl : locate key s._lru_head = some (pre, node, post)) :
    nodeSize node ≤ s._current_size ∧
    Delete s key = some (true,
      { s with
        _lru_index := s._lru_index.erase key
        _current_size := s._current_size - nodeSize node
        _lru_head := pre ++ post }) ∧
    Inv3 { s with
        _lru_index := s._lru_index.erase key
        _current_size := s._current_size - nodeSize node
        _lru_head := pre ++ post } := by
  obtain ⟨hwf, hex⟩ := (Inv3_iff s).mp hinv
  obtain ⟨hc, hkey, -⟩ := locate_some hl
  have hsum : sumSizes s._lru_head = sumSizes (pre ++ post) + nodeSize node := by
    rw [hc]; simp only [sumSizes_append, sumSizes_cons]; omega
  have hle : nodeSize node ≤ s._current_size := by omega
  have hdel := Delete_present hk hl
  rw [size_sub_of_le hle] at hdel
  have hwf1 := WF_remove hwf hc
  rw [size_sub_of_le hle, hkey] at hwf1
  refine ⟨hle, hdel, (Inv3_iff _).mpr ⟨hwf1, ?_⟩⟩
  simp only
  omega

theorem Get_Inv3 {s : SimpleLRU} {key : Str} {pre post : List lru_node}
    {node : lru_node} (hinv : Inv3 s)
    (hl : locate key s._lru_head = some (pre, node, post)) :
    Inv3 { s with _lru_head := pre ++ post ++ [node] } := by
  obtain ⟨hwf, hex⟩ := (Inv3_iff s).mp hinv
  obtain ⟨hc, -, -⟩ := locate_some hl
  have hperm : (pre ++ post ++ [node]).Perm s._lru_head := hc ▸ middle_perm pre node post
  exact (Inv3_iff _).mpr ⟨WF_perm hwf hperm, hex.trans (sumSizes_perm hperm).symm⟩

/-! Entries of zero bytes -/

theorem node_eq_empty_of_size_zero {a : lru_node} (h : nodeSize a = 0) :
    a = { key := [], value := [] } := by
  obtain ⟨k, v⟩ := a
  simp only [nodeSize] at h
  have hk : k = [] := List.length_eq_zero.mp (by omega)
  have hv : v = [] := List.length_eq_zero.mp (by omega)
  rw [hk, hv]

theorem zero_chain {l : List lru_node} (hsum : sumSizes l = 0)
    (hnd : (chainKeys l).Nodup) : l = [] ∨ l = [{ key := [], value := [] }] := by
  cases l with
  | nil => exact Or.inl rfl
  | cons a rest =>
    right
    simp only [sumSizes_cons] at hsum
    have ha := node_eq_empty_of_size_zero (show nodeSize a = 0 by omega)
    cases rest with
    | nil => rw [ha]
    | cons b rest1 =>
      exfalso
      simp only [sumSizes_cons] at hsum
      have hb := node_eq_empty_of_size_zero (show nodeSize b = 0 by omega)
      rw [ha, hb] at hnd
      simp at hnd

theorem Put_of_Set_true {s s1 : SimpleLRU} {key value : Str}
    (hsize : key.length + value.length ≤ s._max_size)
    (h : Set s key value = some (true, s1)) : Put s key value = some (true, s1) := by
  unfold Put
  simp only [show ¬ key.length + value.length > s._max_size by omega, if_false, h]

/-! Index and chain stay in step, whatever the counter does -/

theorem Linked_init (max_size : Nat) : Linked (SimpleLRU.init max_size) := by
  simp [Linked, SimpleLRU.init]

theorem WF_Linked {s : SimpleLRU} (hwf : WF s) : Linked s :=
  ⟨hwf.2.2.1, hwf.2.2.2.1, hwf.2.2.2.2⟩

theorem Linked_remove {s : SimpleLRU} {pre post : List lru_node} {node : lru_node}
    (c : Nat) (hl : Linked s) (hc : s._lru_head = pre ++ node :: post) :
    Linked { s with
      _lru_index := s._lru_index.erase node.key
      _current_size := c
      _lru_head := pre ++ post } := by
  obtain ⟨h3, h4, h5⟩ := hl
  rw [hc] at h3 h4
  simp only [chainKeys_append, chainKeys_cons] at h3 h4
  have hnd := List.nodup_cons.mp (List.nodup_middle.mp h4)
  refine ⟨?_, ?_, ?_⟩
  · intro k
    simp only [chainKeys_append, List.Nodup.mem_erase_iff h5, h3, List.mem_append,
      List.mem_cons]
    have hnot : node.key ∉ chainKeys pre ++ chainKeys post := hnd.1
    simp only [List.mem_append, not_or] at hnot
    constructor
    · rintro ⟨hne, h | h | h⟩
      · exact Or.inl h
      · exact absurd h hne
      · exact Or.inr h
    · rintro (h | h)
      · exact ⟨fun e => hnot.1 (e ▸ h), Or.inl h⟩
      · exact ⟨fun e => hnot.2 (e ▸ h), Or.inr (Or.inr h)⟩
  · simpa using hnd.2
  · exact h5.erase _

theorem Delete_Linked {s s1 : SimpleLRU} {key : Str} {b : Bool} (hl : Linked s)
    (h : Delete s key = some (b, s1)) : Linked s1 := by
  by_cases hk : key ∈ s._lru_index
  · cases hloc : locate key s._lru_head with
    | none => simp [Delete, hk, hloc] at h
    | some r =>
      obtain ⟨pre, node, post⟩ := r
      rw [Delete_present hk hloc] at h
      simp only [Option.some.injEq, Prod.mk.injEq] at h
      obtain ⟨hc, hkey, -⟩ := locate_some hloc
      subst hkey
      rw [← h.2]
      exact Linked_remove _ hl hc
  · rw [Delete_absent hk] at h
    simp only [Option.some.injEq, Prod.mk.injEq] at h
    rw [← h.2]
    exact hl

theorem ClearLoop_Linked (fuel : Nat) (s : SimpleLRU) (size : Nat) (s1 : SimpleLRU)
    (hl : Linked s) (h : ClearLoop fuel s size = some s1) :
    Linked s1 ∧ ∃ n, s1._lru_head = s._lru_head.drop n := by
  induction fuel generalizing s with
  | zero => simp [ClearLoop] at h
  | succ fuel ih =>
    unfold ClearLoop at h
    by_cases hcond : size_add s._current_size size > s._max_size
    · simp only [hcond, if_true] at h
      cases hc : s._lru_head with
      | nil => simp [hc] at h
      | cons head rest =>
        simp only [hc] at h
        by_cases hk : head.key ∈ s._lru_index
        · rw [Delete_head hc hk] at h
          have hl1 := @Linked_remove s [] rest head
            (size_sub s._current_size (nodeSize head)) hl (by simpa using hc)
          simp only [List.nil_append] at hl1
          obtain ⟨g1, n, g2⟩ := ih _ hl1 h
          exact ⟨g1, n + 1, by simpa using g2⟩
        · rw [Delete_absent hk] at h
          simp at h
    · simp only [hcond, if_false, Option.some.injEq] at h
      subst h
      exact ⟨hl, 0, by simp⟩

theorem Clear_Linked {s s1 : SimpleLRU} {size : Nat} {b : Bool} (hl : Linked s)
    (h : Clear s size = some (b, s1)) :
    Linked s1 ∧ ∃ n, s1._lru_head = s._lru_head.drop n := by
  by_cases hsize : size > s._max_size
  · rw [Clear_oversized hsize] at h
    simp only [Option.some.injEq, Prod.mk.injEq] at h
    rw [← h.2]
    exact ⟨hl, 0, by simp⟩
  · exact ClearLoop_Linked _ _ _ _ hl (Clear_loop (by omega) h).2

theorem SimplePut_Linked {s s2 : SimpleLRU} {key value : Str} (hl : Linked s)
    (hk : key ∉ s._lru_index) (h : SimplePut s key value = some s2) : Linked s2 := by
  cases hcl : Clear s (key.length + value.length) with
  | none => simp [SimplePut, hcl] at h
  | some r =>
    obtain ⟨b, s1⟩ := r
    rw [SimplePut_eq hcl, Option.some.injEq] at h
    obtain ⟨⟨g3, g4, g5⟩, n, hdrop⟩ := Clear_Linked hl hcl
    have hk1 : key ∉ s1._lru_index := by
      intro hmem
      rw [g3, hdrop] at hmem
      exact hk ((hl.1 key).mpr (mem_of_mem_drop_keys hmem))
    have hk2 : key ∉ chainKeys s1._lru_head := fun hmem => hk1 ((g3 key).mpr hmem)
    rw [← h]
    refine ⟨?_, ?_, ?_⟩
    · intro k
      simp only [hk1, if_false, List.mem_cons, chainKeys_append, chainKeys_cons,
        chainKeys_nil, List.mem_append, List.mem_singleton, g3, List.not_mem_nil,
        or_false]
      exact or_comm
    · simp only [chainKeys_append, chainKeys_cons, chainKeys_nil]
      rw [List.nodup_append]
      refine ⟨g4, by simp, ?_⟩
      intro a ha hb
      simp only [List.mem_singleton] at hb
      exact hk2 (hb ▸ ha)
    · simp only [hk1, if_false]
      exact List.nodup_cons.mpr ⟨hk1, g5⟩

theorem Linked_perm {s : SimpleLRU} {chain : List lru_node} (hl : Linked s)
    (hp : chain.Perm s._lru_head) : Linked { s with _lru_head := chain } := by
  obtain ⟨h3, h4, h5⟩ := hl
  refine ⟨?_, ?_, h5⟩
  · intro k
    rw [h3]
    exact ((chainKeys_perm hp).mem_iff).symm
  · exact ((chainKeys_perm hp).nodup_iff).mpr h4

theorem Get_Linked {s s1 : SimpleLRU} {key value v : Str} {b : Bool} (hl : Linked s)
    (h : Get s key value = some (b, v, s1)) : Linked s1 := by
  by_cases hk : key ∈ s._lru_index
  · cases hloc : locate key s._lru_head with
    | none => simp [Get, hk, hloc] at h
    | some r =>
      obtain ⟨pre, node, post⟩ := r
      rw [Get_present value hk hloc] at h
      simp only [Option.some.injEq, Prod.mk.injEq] at h
      obtain ⟨hc, -, -⟩ := locate_some hloc
      rw [← h.2.2]
      exact Linked_perm hl (hc ▸ middle_perm pre node post)
  · rw [Get_absent value hk] at h
    simp only [Option.some.injEq, Prod.mk.injEq] at h
    rw [← h.2.2]
    exact hl

theorem Set_Linked {s s3 : SimpleLRU} {key value : Str} {b : Bool} (hl : Linked s)
    (h : Set s key value = some (b, s3)) : Linked s3 := by
  by_cases hsize : key.length + value.length > s._max_size
  · rw [Set_oversized hsize] at h
    simp only [Option.some.injEq, Prod.mk.injEq] at h
    exact h.2 ▸ hl
  by_cases hk : key ∈ s._lru_index
  swap
  · rw [Set_absent hk] at h
    simp only [Option.some.injEq, Prod.mk.injEq] at h
    exact h.2 ▸ hl
  obtain ⟨pre, node, post, hloc⟩ := locate_of_mem ((hl.1 key).mp hk)
  obtain ⟨hc, hkey, -⟩ := locate_some hloc
  rw [Set_present (by omega) hk hloc] at h
  have hl1 : Linked { s with _lru_head := pre ++ post ++ [node] } :=
    Linked_perm hl (hc ▸ middle_perm pre node post)
  cases hcl : Clear { s with _lru_head := pre ++ post ++ [node] }
      (value.length - node.value.length) with
  | none =>
    rw [hcl] at h
    exact absurd h (by simp)
  | some r =>
    obtain ⟨b1, s2⟩ := r
    simp only [hcl] at h
    cases ha : assignValue key value s2._lru_head with
    | none =>
      rw [ha] at h
      exact absurd h (by simp)
    | some chain =>
      simp only [ha, Option.some.injEq, Prod.mk.injEq] at h
      obtain ⟨⟨g3, g4, g5⟩, -⟩ := Clear_Linked hl1 hcl
      obtain ⟨p, x, q, e1, e2, -, e4⟩ := assignValue_some ha
      rw [← h.2]
      refine ⟨?_, ?_, g5⟩
      · intro k
        rw [g3 k, e1, e4]
        simp
      · rw [e1] at g4
        simpa [e4] using g4

theorem Put_Linked {s s2 : SimpleLRU} {key value : Str} {b : Bool} (hl : Linked s)
    (h : Put s key value = some (b, s2)) : Linked s2 := by
  by_cases hsize : key.length + value.length > s._max_size
  · rw [Put_oversized hsize] at h
    simp only [Option.some.injEq, Prod.mk.injEq] at h
    exact h.2 ▸ hl
  unfold Put at h
  simp only [hsize, if_false] at h
  cases hset : Set s key value with
  | none => simp [hset] at h
  | some r =>
    obtain ⟨b1, s1⟩ := r
    cases b1 with
    | true =>
      simp only [hset, Option.some.injEq, Prod.mk.injEq] at h
      exact h.2 ▸ Set_Linked hl hset
    | false =>
      simp only [hset] at h
      obtain ⟨rfl, hor⟩ := Set_false hset
      have hk : key ∉ s1._lru_index := hor.resolve_left hsize
      cases hsp : SimplePut s1 key value with
      | none => simp [hsp] at h
      | some s3 =>
        simp only [hsp, Option.some.injEq, Prod.mk.injEq] at h
        exact h.2 ▸ SimplePut_Linked hl hk hsp

theorem PutIfAbsent_Linked {s s2 : SimpleLRU} {key value : Str} {b : Bool}
    (hl : Linked s) (h : PutIfAbsent s key value = some (b, s2)) : Linked s2 := by
  by_cases hsize : key.length + value.length > s._max_size
  · rw [PutIfAbsent_oversized hsize] at h
    simp only [Option.some.injEq, Prod.mk.injEq] at h
    exact h.2 ▸ hl
  by_cases hk : key ∈ s._lru_index
  · rw [PutIfAbsent_present hk] at h
    simp only [Option.some.injEq, Prod.mk.injEq] at h
    exact h.2 ▸ hl
  rw [PutIfAbsent_absent (by omega) hk] at h
  cases hsp : SimplePut s key value with
  | none => simp [hsp] at h
  | some s3 =>
    simp only [hsp, Option.some.injEq, Prod.mk.injEq] at h
    exact h.2 ▸ SimplePut_Linked hl hk hsp

theorem step_Linked {s s1 : SimpleLRU} {op : Op} (hl : Linked s)
    (h : step s op = some s1) : Linked s1 := by
  cases op with
  | put k v =>
    cases hp : Put s k v with
    | none => simp [step, hp] at h
    | some r =>
      obtain ⟨b, s2⟩ := r
      simp only [step, hp, Option.map_some', Option.some.injEq] at h
      exact h ▸ Put_Linked hl hp
  | putIfAbsent k v =>
    cases hp : PutIfAbsent s k v with
    | none => simp [step, hp] at h
    | some r =>
      obtain ⟨b, s2⟩ := r
      simp only [step, hp, Option.map_some', Option.some.injEq] at h
      exact h ▸ PutIfAbsent_Linked hl hp
  | set k v =>
    cases hp : Set s k v with
    | none => simp [step, hp] at h
    | some r =>
      obtain ⟨b, s2⟩ := r
      simp only [step, hp, Option.map_some', Option.some.injEq] at h
      exact h ▸ Set_Linked hl hp
  | delete k =>
    cases hp : Delete s k with
    | none => simp [step, hp] at h
    | some r =>
      obtain ⟨b, s2⟩ := r
      simp only [step, hp, Option.map_some', Option.some.injEq] at h
      exact h ▸ Delete_Linked hl hp
  | get k =>
    cases hp : Get s k [] with
    | none => simp [step, hp] at h
    | some r =>
      obtain ⟨b, v, s2⟩ := r
      simp only [step, hp, Option.map_some', Option.some.injEq] at h
      exact h ▸ Get_Linked hl hp

theorem run_Linked {s s1 : SimpleLRU} {ops : List Op} (hl : Linked s)
    (h : run s ops = some s1) : Linked s1 := by
  induction ops generalizing s with
  | nil =>
    simp only [run, Option.some.injEq] at h
    exact h ▸ hl
  | cons op ops ih =>
    unfold run at h
    cases hs : step s op with
    | none => simp [hs] at h
    | some s2 =>
      simp only [hs] at h
      exact ih (step_Linked hl hs) h

theorem Reachable_Linked {max_size : Nat} {s : SimpleLRU} (h : Reachable max_size s) :
    Linked s := by
  obtain ⟨ops, hops⟩ := h
  exact run_Linked (Linked_init max_size) hops

/-! Raising the counter with shrinking overwrites -/

theorem SimplePut_total_Inv3 {s : SimpleLRU} {key value : Str} (hinv : Inv3 s)
    (hk : key ∉ s._lru_index) (hsize : key.length + value.length ≤ s._max_size) :
    ∃ s2, SimplePut s key value = some s2 ∧
      (s._current_size + (key.length + value.length) < SIZE_MOD → Inv3 s2) := by
  obtain ⟨n, s2, h1, -⟩ := SimplePut_returns hinv hsize
  refine ⟨s2, h1, ?_⟩
  intro hmem
  obtain ⟨m, s3, g1, -, -, -, -, -, -, g8⟩ := SimplePut_Inv3 hinv hk hsize hmem
  rw [h1, Option.some.injEq] at g1
  exact g1 ▸ g8

theorem Set_total_Inv3 {s : SimpleLRU} {key value : Str} {pre post : List lru_node}
    {node : lru_node} (hinv : Inv3 s) (hk : key ∈ s._lru_index)
    (hsize : key.length + value.length ≤ s._max_size)
    (hl : locate key s._lru_head = some (pre, node, post)) :
    ∃ s3, Set s key value = some (true, s3) ∧
      (s._current_size + (key.length + value.length) < SIZE_MOD →
        node.value.length ≤ value.length → Inv3 s3) := by
  obtain ⟨n, s2, -, -, -, -, -, -, -, h⟩ := Set_returns hinv hk hsize hl
  refine ⟨_, h, ?_⟩
  intro hmem hgrow
  obtain ⟨m, s3, g1, -, -, -, -, g6, g7⟩ :=
    Set_Inv3 hinv hk hsize hl (show s._current_size +
      (value.length - node.value.length) < SIZE_MOD by omega)
  rw [h, Option.some.injEq, Prod.mk.injEq] at g1
  rw [g1.2]
  exact (Inv3_iff s3).mpr ⟨g6, g7 hgrow⟩

/-! The claims -/

/-- C1: the size counter is not the exact sum of the live entries in every
reachable state.  With capacity 10, `Put("a","22")` followed by
`Set("a","1")` completes and leaves the single entry `a:"1"` (2 bytes) while
`_current_size` is still 3: `Set` adds the growth of a value to the counter
but never subtracts when the new value is shorter. -/
theorem C1_shrinking_set_overcounts :
    run (SimpleLRU.init 10) [.put ['a'] ['2', '2'], .set ['a'] ['1']] =
      some { _max_size := 10, _current_size := 3, _lru_index := [['a']],
             _lru_head := [{ key := ['a'], value := ['1'] }] } ∧
    sumSizes [{ key := ['a'], value := ['1'] }] = 2 := by
  decide

/-- C3: in every state reachable from the empty cache by a finite sequence
of completed public operations, the keys held by the index are exactly the
keys of the entries of the recency list, and no key occurs twice in the
recency list. -/
theorem C3_index_keys_eq_chain_keys (max_size : Nat) (s : SimpleLRU)
    (h : Reachable max_size s) :
    (∀ k, k ∈ s._lru_index ↔ k ∈ chainKeys s._lru_head) ∧
    (chainKeys s._lru_head).Nodup := by
  obtain ⟨h1, h2, -⟩ := Reachable_Linked h
  exact ⟨h1, h2⟩

theorem C3_index_keys_eq_chain_keys_witness :
    Reachable 10 scenarioFinal ∧
    (∀ k, k ∈ scenarioFinal._lru_index ↔ k ∈ chainKeys scenarioFinal._lru_head) ∧
    (chainKeys scenarioFinal._lru_head).Nodup :=
  ⟨⟨scenarioOps ++ [.put ['d'] ['4', '4', '4', '4']], by decide⟩,
    C3_index_keys_eq_chain_keys 10 scenarioFinal
      ⟨scenarioOps ++ [.put ['d'] ['4', '4', '4', '4']], by decide⟩⟩

/-- C4: `Put` of an item that fits the capacity does not always return.
With capacity 10, `Put("a","123456789")` and `Set("a","")` complete and
leave `_current_size = 10` for one live byte; `Put("b","1")` (2 bytes) then
evicts `a`, still finds `9 + 2 > 10` and dereferences the null `_lru_head`
in `Clear`. -/
theorem C4_put_undefined_after_shrink :
    run (SimpleLRU.init 10) shrunkOps = some shrunkState ∧
    ['b'].length + ['1'].length ≤ shrunkState._max_size ∧
    Put shrunkState ['b'] ['1'] = none := by
  decide

/-- C5: when the invariants of section 3 hold, the key is absent and the
item fits the capacity, `Put` returns `true`, removes a run of entries from
the LRU end, keeps the survivors in order and appends the new entry at the
MRU end.  When the entries and the two arguments are held in memory at once
(`_current_size + len(key) + len(value) < 2^64`, so that the sum of the loop
condition does not wrap), the run removed is exactly the shortest one whose
removal makes room for the item (nothing when it already fits), and the
invariants hold again.  In the scenario of the spec (capacity 10) the final
cache is `a:"1"`, `d:"4444"` with `_current_size = 7`, and `Get("b")`,
`Get("c")` report not-found. -/
theorem C5_put_evicts_shortest_lru_run (s : SimpleLRU) (key value : Str)
    (hinv : Inv3 s) (hk : key ∉ s._lru_index)
    (hsize : key.length + value.length ≤ s._max_size) :
    (∃ n s2, Put s key value = some (true, s2) ∧ n ≤ s._lru_head.length ∧
      s2._lru_head = s._lru_head.drop n ++ [{ key := key, value := value }] ∧
      s2._max_size = s._max_size ∧
      (s._current_size + (key.length + value.length) < SIZE_MOD →
        s._current_size - sumSizes (s._lru_head.take n) + (key.length + value.length)
          ≤ s._max_size ∧
        (∀ m, m < n → s._max_size <
          s._current_size - sumSizes (s._lru_head.take m) + (key.length + value.length)) ∧
        (s._current_size + (key.length + value.length) ≤ s._max_size → n = 0) ∧
        s2._current_size =
          s._current_size - sumSizes (s._lru_head.take n) + (key.length + value.length) ∧
        Inv3 s2)) ∧
    (∃ s3, run (SimpleLRU.init 10)
        [.put ['a'] ['1'], .put ['b'] ['2', '2'], .put ['c'] ['3', '3', '3'], .get ['a'],
         .put ['d'] ['4', '4', '4', '4']] = some s3 ∧
      s3._lru_head = [{ key := ['a'], value := ['1'] },
                      { key := ['d'], value := ['4', '4', '4', '4'] }] ∧
      s3._current_size = 7 ∧
      (∀ k, k ∈ s3._lru_index ↔ k = ['a'] ∨ k = ['d']) ∧
      Get s3 ['b'] [] = some (false, [], s3) ∧
      Get s3 ['c'] [] = some (false, [], s3)) := by
  constructor
  · by_cases hmem : s._current_size + (key.length + value.length) < SIZE_MOD
    · obtain ⟨n, s2, h1, h2, h3, h4, h5, h6, h7, h8⟩ :=
        SimplePut_Inv3 hinv hk hsize hmem
      refine ⟨n, s2, ?_, h2, h3, h7, fun _ => ⟨h4, h5, ?_, h6, h8⟩⟩
      · rw [Put_absent hsize hk, h1]
      · intro hfit
        by_contra hn
        have := h5 0 (by omega)
        simp only [List.take_zero, sumSizes_nil] at this
        omega
    · obtain ⟨n, s2, h1, h2, h3, -, h5⟩ := SimplePut_returns hinv hsize
      refine ⟨n, s2, ?_, h2, h3, h5, fun h => absurd h hmem⟩
      rw [Put_absent hsize hk, h1]
  · refine ⟨scenarioFinal, by decide, rfl, rfl, ?_, by decide, by decide⟩
    intro k
    simp only [scenarioFinal, List.mem_cons, List.mem_singleton, List.not_mem_nil, or_false]
    exact or_comm

theorem C5_put_evicts_shortest_lru_run_witness :
    Inv3 scenarioState ∧ ['d'] ∉ scenarioState._lru_index ∧
    ∃ n s2, Put scenarioState ['d'] ['4', '4', '4', '4'] = some (true, s2) ∧
      n ≤ scenarioState._lru_head.length ∧ Inv3 s2 :=
  ⟨by decide, by decide,
    match (C5_put_evicts_shortest_lru_run scenarioState ['d'] ['4', '4', '4', '4']
      (by decide) (by decide) (by decide)).1 with
    | ⟨n, s2, h1, h2, _, _, h5⟩ => ⟨n, s2, h1, h2, (h5 (by decide)).2.2.2.2⟩⟩

/-- C6: for every cache state and every key and value, `Put` returns `false`
exactly when `len(key) + len(value) > _max_size`, and in that case the state
(index, recency order, values, `_current_size`) is returned unchanged. -/
theorem C6_put_rejects_exactly_oversized (s : SimpleLRU) (key value : Str) :
    ((∃ s1, Put s key value = some (false, s1)) ↔
      key.length + value.length > s._max_size) ∧
    (∀ s1, Put s key value = some (false, s1) → s1 = s) := by
  refine ⟨⟨?_, ?_⟩, ?_⟩
  · rintro ⟨s1, h⟩
    exact Put_false h
  · intro hsize
    exact ⟨s, Put_oversized hsize⟩
  · intro s1 h
    have hsize := Put_false h
    rw [Put_oversized hsize] at h
    simp only [Option.some.injEq, Prod.mk.injEq, true_and] at h
    exact h.symm

theorem C6_put_rejects_exactly_oversized_witness :
    ['d'].length + ['1', '2', '3', '4', '5', '6', '7', '8', '9', '0'].length >
      scenarioState._max_size ∧
    ∃ s1, Put scenarioState ['d'] ['1', '2', '3', '4', '5', '6', '7', '8', '9', '0'] =
      some (false, s1) :=
  ⟨by decide,
    (C6_put_rejects_exactly_oversized scenarioState ['d']
      ['1', '2', '3', '4', '5', '6', '7', '8', '9', '0']).1.mpr (by decide)⟩

/-- C7: for every cache state, each no-op path returns the state unchanged
(same index, entries, values, recency order and `_current_size`):
`PutIfAbsent` on a present key, `Set` on an absent key, `Set` on a present
key whose new entry size exceeds `_max_size`, `Delete` on an absent key and
`Get` on an absent key (which also leaves the caller's buffer alone); all
five report `false`. -/
theorem C7_noop_paths_leave_state (s : SimpleLRU) (key value : Str) :
    (key ∈ s._lru_index → PutIfAbsent s key value = some (false, s)) ∧
    (key ∉ s._lru_index → Set s key value = some (false, s)) ∧
    (key ∈ s._lru_index → key.length + value.length > s._max_size →
      Set s key value = some (false, s)) ∧
    (key ∉ s._lru_index → Delete s key = some (false, s)) ∧
    (key ∉ s._lru_index → Get s key value = some (false, value, s)) :=
  ⟨fun h => PutIfAbsent_present h, fun h => Set_absent h,
    fun _ h => Set_oversized h, fun h => Delete_absent h, fun h => Get_absent value h⟩

theorem C7_noop_paths_leave_state_witness :
    ['a'] ∈ scenarioState._lru_index ∧
    PutIfAbsent scenarioState ['a'] ['x'] = some (false, scenarioState) :=
  ⟨by decide, (C7_noop_paths_leave_state scenarioState ['a'] ['x']).1 (by decide)⟩

/-- C8: the operations are not total on every reachable state.  In the
reachable state left by `Put("a","123456789")`, `Set("a","")` (capacity 10,
counter 10, one live byte), `PutIfAbsent("b","1")` does not return: its
eviction loop deletes `a`, the recency list is then empty while
`9 + 2 > 10` still holds, and the loop evaluates `_lru_head->key` on the
null head. -/
theorem C8_clear_dereferences_null_head :
    run (SimpleLRU.init 10) shrunkOps = some shrunkState ∧
    Delete shrunkState ['a'] = some (true, shrunkEvicted) ∧
    shrunkEvicted._lru_head = [] ∧
    shrunkEvicted._current_size + 2 > shrunkEvicted._max_size ∧
    Clear shrunkState 2 = none ∧
    PutIfAbsent shrunkState ['b'] ['1'] = none := by
  decide

/-- C9: eviction can remove the entry being updated.  In the reachable
state left by `Put("a","123456789")`, `Set("a","")` (capacity 10), the key
`a` is present and `a:"1"` fits the capacity, yet the eviction run inside
`Set("a","1")` deletes `a` itself (`10 + 1 > 10`), after which
`node.value = value` writes through a reference to a destroyed node. -/
theorem C9_set_evicts_own_entry :
    run (SimpleLRU.init 10) shrunkOps = some shrunkState ∧
    ['a'] ∈ shrunkState._lru_index ∧
    ['a'].length + ['1'].length ≤ shrunkState._max_size ∧
    Clear shrunkState 1 = some (true, shrunkEvicted) ∧
    ['a'] ∉ shrunkEvicted._lru_index ∧
    Set shrunkState ['a'] ['1'] = none := by
  decide

/-- C10: when the invariants of section 3 hold and the key is present,
`Get` returns `true` with the value stored for the key, and the new recency
order is the old one with that entry taken out and appended at the MRU end,
wherever the entry was (head, tail, only entry, middle); the index, the
entries and their values, `_current_size` and `_max_size` are unchanged. -/
theorem C10_get_moves_entry_to_mru (s : SimpleLRU) (key buf : Str)
    (hinv : Inv3 s) (hk : key ∈ s._lru_index) :
    ∃ pre node post, s._lru_head = pre ++ node :: post ∧ node.key = key ∧
      key ∉ chainKeys pre ∧ key ∉ chainKeys post ∧
      Get s key buf =
        some (true, node.value, { s with _lru_head := pre ++ post ++ [node] }) := by
  obtain ⟨hwf, -⟩ := (Inv3_iff s).mp hinv
  obtain ⟨pre, node, post, hl⟩ := locate_of_mem ((hwf.2.2.1 key).mp hk)
  obtain ⟨hc, hkey, hpre⟩ := locate_some hl
  refine ⟨pre, node, post, hc, hkey, hpre, ?_, Get_present buf hk hl⟩
  have hnd := hwf.2.2.2.1
  rw [hc, chainKeys_append, chainKeys_cons] at hnd
  have := (List.nodup_cons.mp (List.nodup_middle.mp hnd)).1
  rw [hkey] at this
  exact fun h => this (List.mem_append_right _ h)

theorem C10_get_moves_entry_to_mru_witness :
    Inv3 scenarioState ∧ ['c'] ∈ scenarioState._lru_index ∧
    ∃ pre node post, scenarioState._lru_head = pre ++ node :: post ∧ node.key = ['c'] ∧
      ['c'] ∉ chainKeys pre ∧ ['c'] ∉ chainKeys post ∧
      Get scenarioState ['c'] [] =
        some (true, node.value,
          { scenarioState with _lru_head := pre ++ post ++ [node] }) :=
  ⟨by decide, by decide,
    C10_get_moves_entry_to_mru scenarioState ['c'] [] (by decide) (by decide)⟩


/-- C11: a touched entry is not always protected from the next eviction
round.  With capacity 10, `Put("a","12345")` and `Set("a","")` complete and
leave `_current_size = 6` for one live byte.  `Get("a")` then succeeds with
value `""`; the key `b` is absent and `a:""` together with `b:"1234"` is 6
bytes, yet `Put("b","1234")` evicts `a` (`6 + 5 > 10`) and the following
`Get("a")` reports not-found. -/
theorem C11_touched_entry_evicted :
    run (SimpleLRU.init 10) overcountOps = some overcountState ∧
    Get overcountState ['a'] ['x'] = some (true, [], overcountState) ∧
    ['b'] ∉ overcountState._lru_index ∧
    ['a'].length + ([] : Str).length + ['b'].length + ['1', '2', '3', '4'].length ≤
      overcountState._max_size ∧
    Put overcountState ['b'] ['1', '2', '3', '4'] = some (true, overcountAfterPut) ∧
    Get overcountAfterPut ['a'] ['x'] = some (false, ['x'], overcountAfterPut) := by
  decide

/-- C12: when the invariants of section 3 hold, `Set` returns `true` exactly
when the key is present and `len(key) + len(value) <= _max_size`; in every
other case it returns `false` with the state unchanged, so it never creates
an entry for an absent key. -/
theorem C12_set_true_iff_present_and_fits (s : SimpleLRU) (key value : Str)
    (hinv : Inv3 s) :
    ((∃ s1, Set s key value = some (true, s1)) ↔
      key ∈ s._lru_index ∧ key.length + value.length ≤ s._max_size) ∧
    (¬ (key ∈ s._lru_index ∧ key.length + value.length ≤ s._max_size) →
      Set s key value = some (false, s)) ∧
    (key ∉ s._lru_index →
      Set s key value = some (false, s) ∧ key ∉ chainKeys s._lru_head) := by
  have hno : ¬ (key ∈ s._lru_index ∧ key.length + value.length ≤ s._max_size) →
      Set s key value = some (false, s) := by
    intro hnot
    by_cases hk : key ∈ s._lru_index
    · exact Set_oversized (by
        by_contra hle
        exact hnot ⟨hk, by omega⟩)
    · exact Set_absent hk
  obtain ⟨hwf, -⟩ := (Inv3_iff s).mp hinv
  refine ⟨⟨?_, ?_⟩, hno, ?_⟩
  · rintro ⟨s1, h⟩
    by_contra hnot
    rw [hno hnot] at h
    simp at h
  · rintro ⟨hk, hsize⟩
    obtain ⟨pre, node, post, hl⟩ := locate_of_mem ((hwf.2.2.1 key).mp hk)
    obtain ⟨n, s2, -, -, -, -, -, -, -, h⟩ := Set_returns hinv hk hsize hl
    exact ⟨_, h⟩
  · intro hk
    exact ⟨Set_absent hk, fun hmem => hk ((hwf.2.2.1 key).mpr hmem)⟩

theorem C12_set_true_iff_present_and_fits_witness :
    Inv3 scenarioState ∧
    ((∃ s1, Set scenarioState ['b'] ['x', 'y', 'z'] = some (true, s1)) ↔
      ['b'] ∈ scenarioState._lru_index ∧
        ['b'].length + ['x', 'y', 'z'].length ≤ scenarioState._max_size) :=
  ⟨by decide,
    (C12_set_true_iff_present_and_fits scenarioState ['b'] ['x', 'y', 'z'] (by decide)).1⟩

/-- C13: when the invariants of section 3 hold, `PutIfAbsent` returns `true`
exactly when the key is absent and `len(key) + len(value) <= _max_size`; in
every other case it returns `false` with the state unchanged; when it
returns `true` the key is in the index and the entry `key:value` is at the
MRU end, and the invariants hold again when the entries and the two
arguments are held in memory at once
(`_current_size + len(key) + len(value) < 2^64`, so that no sum wraps). -/
theorem C13_putIfAbsent_true_iff_absent_and_fits (s : SimpleLRU) (key value : Str)
    (hinv : Inv3 s) :
    ((∃ s1, PutIfAbsent s key value = some (true, s1)) ↔
      key ∉ s._lru_index ∧ key.length + value.length ≤ s._max_size) ∧
    (¬ (key ∉ s._lru_index ∧ key.length + value.length ≤ s._max_size) →
      PutIfAbsent s key value = some (false, s)) ∧
    (∀ s1, PutIfAbsent s key value = some (true, s1) →
      key ∈ s1._lru_index ∧
      s1._lru_head.getLast? = some { key := key, value := value } ∧
      (s._current_size + (key.length + value.length) < SIZE_MOD → Inv3 s1)) := by
  have hno : ¬ (key ∉ s._lru_index ∧ key.length + value.length ≤ s._max_size) →
      PutIfAbsent s key value = some (false, s) := by
    intro hnot
    by_cases hk : key ∈ s._lru_index
    · exact PutIfAbsent_present hk
    · exact PutIfAbsent_oversized (by
        by_contra hle
        exact hnot ⟨hk, by omega⟩)
  have hyes : key ∉ s._lru_index ∧ key.length + value.length ≤ s._max_size →
      ∃ s2, PutIfAbsent s key value = some (true, s2) ∧ key ∈ s2._lru_index ∧
        s2._lru_head.getLast? = some { key := key, value := value } ∧
        (s._current_size + (key.length + value.length) < SIZE_MOD → Inv3 s2) := by
    rintro ⟨hk, hsize⟩
    obtain ⟨n, s2, h1, -, h3, h4, -⟩ := SimplePut_returns hinv hsize
    refine ⟨s2, by rw [PutIfAbsent_absent hsize hk, h1], h4, ?_, ?_⟩
    · rw [h3, List.getLast?_concat]
    · intro hmem
      obtain ⟨m, s3, g1, -, -, -, -, -, -, g8⟩ := SimplePut_Inv3 hinv hk hsize hmem
      rw [h1, Option.some.injEq] at g1
      exact g1 ▸ g8
  refine ⟨⟨?_, ?_⟩, hno, ?_⟩
  · rintro ⟨s1, h⟩
    by_contra hnot
    rw [hno hnot] at h
    simp at h
  · intro hcond
    obtain ⟨s2, h, -⟩ := hyes hcond
    exact ⟨s2, h⟩
  · intro s1 h
    by_cases hcond : key ∉ s._lru_index ∧ key.length + value.length ≤ s._max_size
    · obtain ⟨s2, h2, g⟩ := hyes hcond
      rw [h2] at h
      simp only [Option.some.injEq, Prod.mk.injEq, true_and] at h
      exact h ▸ g
    · rw [hno hcond] at h
      simp at h

theorem C13_putIfAbsent_true_iff_absent_and_fits_witness :
    Inv3 scenarioState ∧
    ((∃ s1, PutIfAbsent scenarioState ['d'] ['4'] = some (true, s1)) ↔
      ['d'] ∉ scenarioState._lru_index ∧
        ['d'].length + ['4'].length ≤ scenarioState._max_size) :=
  ⟨by decide,
    (C13_putIfAbsent_true_iff_absent_and_fits scenarioState ['d'] ['4'] (by decide)).1⟩

/-- C14: when the invariants of section 3 hold, `Delete` returns `true`
exactly when the key is present and otherwise returns `false` with the state
unchanged; when it returns `true`, the entry of the key is gone from the
index and from the recency list, every other entry keeps its value and its
relative position (whatever the position of the deleted entry), the other
keys stay in the index, `_current_size` has decreased by exactly
`len(key) + len(stored value)`, and the invariants hold again. -/
theorem C14_delete_removes_exactly_entry (s : SimpleLRU) (key : Str) (hinv : Inv3 s) :
    ((∃ s1, Delete s key = some (true, s1)) ↔ key ∈ s._lru_index) ∧
    (key ∉ s._lru_index → Delete s key = some (false, s)) ∧
    (key ∈ s._lru_index →
      ∃ pre node post, s._lru_head = pre ++ node :: post ∧ node.key = key ∧
        Delete s key = some (true,
          { s with
            _lru_index := s._lru_index.erase key
            _current_size := s._current_size - (key.length + node.value.length)
            _lru_head := pre ++ post }) ∧
        key.length + node.value.length ≤ s._current_size ∧
        key ∉ s._lru_index.erase key ∧ key ∉ chainKeys (pre ++ post) ∧
        (∀ k, k ≠ key → (k ∈ s._lru_index.erase key ↔ k ∈ s._lru_index)) ∧
        Inv3 { s with
            _lru_index := s._lru_index.erase key
            _current_size := s._current_size - (key.length + node.value.length)
            _lru_head := pre ++ post }) := by
  obtain ⟨hwf, -⟩ := (Inv3_iff s).mp hinv
  have hyes : key ∈ s._lru_index →
      ∃ pre node post, s._lru_head = pre ++ node :: post ∧ node.key = key ∧
        Delete s key = some (true,
          { s with
            _lru_index := s._lru_index.erase key
            _current_size := s._current_size - (key.length + node.value.length)
            _lru_head := pre ++ post }) ∧
        key.length + node.value.length ≤ s._current_size ∧
        key ∉ s._lru_index.erase key ∧ key ∉ chainKeys (pre ++ post) ∧
        (∀ k, k ≠ key → (k ∈ s._lru_index.erase key ↔ k ∈ s._lru_index)) ∧
        Inv3 { s with
            _lru_index := s._lru_index.erase key
            _current_size := s._current_size - (key.length + node.value.length)
            _lru_head := pre ++ post } := by
    intro hk
    obtain ⟨pre, node, post, hl⟩ := locate_of_mem ((hwf.2.2.1 key).mp hk)
    obtain ⟨hc, hkey, -⟩ := locate_some hl
    obtain ⟨g1, g2, g3⟩ := Delete_Inv3 hinv hk hl
    have hns : nodeSize node = key.length + node.value.length := by
      simp only [nodeSize, hkey]
    rw [hns] at g1 g2 g3
    have hgone : key ∉ s._lru_index.erase key := by
      rw [List.Nodup.mem_erase_iff hwf.2.2.2.2]
      exact fun h => h.1 rfl
    refine ⟨pre, node, post, hc, hkey, g2, g1, hgone, ?_, ?_, g3⟩
    · intro hmem
      exact hgone (g3.2.2.2.1 key hmem)
    · intro k hne
      rw [List.Nodup.mem_erase_iff hwf.2.2.2.2]
      exact ⟨fun h => h.2, fun h => ⟨hne, h⟩⟩
  refine ⟨⟨?_, ?_⟩, fun hk => Delete_absent hk, hyes⟩
  · rintro ⟨s1, h⟩
    by_contra hk
    rw [Delete_absent hk] at h
    simp at h
  · intro hk
    obtain ⟨pre, node, post, -, -, h, -⟩ := hyes hk
    exact ⟨_, h⟩

theorem C14_delete_removes_exactly_entry_witness :
    Inv3 scenarioState ∧
    ((∃ s1, Delete scenarioState ['c'] = some (true, s1)) ↔
      ['c'] ∈ scenarioState._lru_index) :=
  ⟨by decide, (C14_delete_removes_exactly_entry scenarioState ['c'] (by decide)).1⟩

/-- C15, as stated, fails: after `Put("","")` on the empty cache of capacity
10 the invariants of section 3 hold, and `Put("a","123456789")` (exactly 10
bytes) returns `true` but the cache then holds two entries, the entry of
zero bytes and the new one. -/
theorem C15_zero_byte_entry_survives :
    run (SimpleLRU.init 10) [.put [] []] = some emptyEntryState ∧
    Inv3 emptyEntryState ∧
    ['a'].length + ['1', '2', '3', '4', '5', '6', '7', '8', '9'].length =
      emptyEntryState._max_size ∧
    Put emptyEntryState ['a'] ['1', '2', '3', '4', '5', '6', '7', '8', '9'] =
      some (true, emptyEntryAfterPut) ∧
    emptyEntryAfterPut._lru_head.length = 2 ∧
    emptyEntryAfterPut._lru_head ≠
      [{ key := ['a'], value := ['1', '2', '3', '4', '5', '6', '7', '8', '9'] }] := by
  decide

/-- C15, amended: when the invariants of section 3 hold and
`len(key) + len(value) = _max_size` (zero-length key or value included),
`Put` returns `true`, the entry `key:value` is at the MRU end and the key is
in the index.  When the entries and the two arguments are held in memory at
once (`_current_size + len(key) + len(value) < 2^64`, so that no sum wraps),
afterwards `_current_size = _max_size` and the only other entry that can
remain is the entry with empty key and empty value, which occupies no
bytes.  From a cache with no entries the result holds exactly the one new
entry. -/
theorem C15_exact_capacity_put (s : SimpleLRU) (key value : Str) (hinv : Inv3 s)
    (hsize : key.length + value.length = s._max_size) :
    ∃ s1 others, Put s key value = some (true, s1) ∧
      (s._current_size + (key.length + value.length) < SIZE_MOD →
        s1._current_size = s1._max_size) ∧
      s1._max_size = s._max_size ∧
      s1._lru_head = others ++ [{ key := key, value := value }] ∧
      (s._current_size + (key.length + value.length) < SIZE_MOD →
        others = [] ∨ others = [{ key := [], value := [] }]) ∧
      (s._lru_head = [] → others = []) ∧
      key ∈ s1._lru_index := by
  obtain ⟨hwf, -⟩ := (Inv3_iff s).mp hinv
  have hfin : ∀ (s1 : SimpleLRU) (others : List lru_node), WF s1 →
      s1._max_size = s._max_size →
      s1._lru_head = others ++ [{ key := key, value := value }] →
      s1._current_size = s1._max_size ∧
      (others = [] ∨ others = [{ key := [], value := [] }]) := by
    intro s1 others hwf1 hmax hchain
    obtain ⟨g1, g2, g3, g4, -⟩ := hwf1
    rw [hchain] at g1 g4
    simp only [sumSizes_append, sumSizes_cons, sumSizes_nil, nodeSize] at g1
    rw [chainKeys_append] at g4
    exact ⟨by omega, zero_chain (by omega) (List.Nodup.of_append_left g4)⟩
  have hle : key.length + value.length ≤ s._max_size := by omega
  by_cases hk : key ∈ s._lru_index
  · obtain ⟨pre, node, post, hl⟩ := locate_of_mem ((hwf.2.2.1 key).mp hk)
    obtain ⟨hc, hkey, -⟩ := locate_some hl
    obtain ⟨n, s2, -, hwf2, hdrop, -, hmax, -, -, hset⟩ := Set_returns hinv hk hle hl
    have hput := Put_of_Set_true hle hset
    have hall : s._current_size + (key.length + value.length) < SIZE_MOD →
        size_add s2._current_size (value.length - node.value.length) = s2._max_size ∧
        ((pre ++ post).drop n = [] ∨
          (pre ++ post).drop n = [{ key := [], value := [] }]) := by
      intro hmem
      obtain ⟨m, s3, g1, -, g3, -, g5, g6, -⟩ :=
        Set_Inv3 hinv hk hle hl (show s._current_size +
          (value.length - node.value.length) < SIZE_MOD by omega)
      obtain ⟨f1, f2⟩ := hfin s3 _ g6 g5 g3
      rw [hset, Option.some.injEq, Prod.mk.injEq] at g1
      have e := g1.2
      have e1 : s3._current_size =
          size_add s2._current_size (value.length - node.value.length) := by
        rw [← e]
      have e2 : s3._max_size = s2._max_size := by rw [← e]
      have e3 : s3._lru_head =
          (pre ++ post).drop n ++ [{ key := key, value := value }] := by rw [← e]
      have e4 : (pre ++ post).drop m = (pre ++ post).drop n := by
        rw [g3] at e3
        exact List.append_cancel_right e3
      rw [e1, e2] at f1
      rw [e4] at f2
      exact ⟨f1, f2⟩
    refine ⟨_, (pre ++ post).drop n, hput, fun h => (hall h).1, hmax, rfl,
      fun h => (hall h).2, ?_, ?_⟩
    · intro hnil
      rw [hnil] at hc
      simp at hc
    · rw [hwf2.2.2.1, hdrop]
      simp [hkey]
  · obtain ⟨n, s2, h1, -, h3, h4, h5⟩ := SimplePut_returns hinv hle
    have hall : s._current_size + (key.length + value.length) < SIZE_MOD →
        s2._current_size = s2._max_size ∧
        (s._lru_head.drop n = [] ∨ s._lru_head.drop n = [{ key := [], value := [] }]) := by
      intro hmem
      obtain ⟨m, s3, g1, -, g3, -, -, -, g7, g8⟩ := SimplePut_Inv3 hinv hk hle hmem
      rw [h1, Option.some.injEq] at g1
      subst g1
      exact hfin s2 _ ((Inv3_iff s2).mp g8).1 h5 h3
    refine ⟨s2, _, by rw [Put_absent hle hk, h1], fun h => (hall h).1, h5, h3,
      fun h => (hall h).2, ?_, h4⟩
    intro hnil
    rw [hnil]
    simp

theorem C15_exact_capacity_put_witness :
    Inv3 emptyEntryState ∧
    ['a'].length + ['1', '2', '3', '4', '5', '6', '7', '8', '9'].length =
      emptyEntryState._max_size ∧
    ∃ s1 others,
      Put emptyEntryState ['a'] ['1', '2', '3', '4', '5', '6', '7', '8', '9'] =
        some (true, s1) ∧
      s1._current_size = s1._max_size ∧ s1._max_size = emptyEntryState._max_size ∧
      s1._lru_head =
        others ++ [{ key := ['a'], value := ['1', '2', '3', '4', '5', '6', '7', '8', '9'] }] ∧
      (others = [] ∨ others = [{ key := [], value := [] }]) ∧
      (emptyEntryState._lru_head = [] → others = []) ∧
      ['a'] ∈ s1._lru_index :=
  ⟨by decide, by decide,
    match C15_exact_capacity_put emptyEntryState ['a']
      ['1', '2', '3', '4', '5', '6', '7', '8', '9'] (by decide) (by decide) with
    | ⟨s1, others, h1, h2, h3, h4, h5, h6, h7⟩ =>
      ⟨s1, others, h1, h2 (by decide), h3, h4, h5 (by decide), h6, h7⟩⟩

/-- C17: exact size accounting survives every step other than a shrinking
overwrite.  From a state in which the invariants of section 3 hold, `Put` of
an absent key, `PutIfAbsent`, `Delete`, `Get`, and `Set` or `Put` with a new
value at least as long as the value stored for the key (if there is one)
all return.  In the state `Delete` and `Get` return the invariants hold
again, and so they do in the state the others return when the entries and
the two arguments are held in memory at once
(`_current_size + len(key) + len(value) < 2^64`, so that no sum wraps); in
particular `_current_size` is then the sum of `len(key) + len(value)` over
the live entries. -/
theorem C17_exact_accounting_preserved (s : SimpleLRU) (key value buf : Str)
    (hinv : Inv3 s) :
    (key ∉ s._lru_index → ∃ b s1, Put s key value = some (b, s1) ∧
      (s._current_size + (key.length + value.length) < SIZE_MOD →
        Inv3 s1 ∧ s1._current_size = sumSizes s1._lru_head)) ∧
    (∃ b s1, PutIfAbsent s key value = some (b, s1) ∧
      (s._current_size + (key.length + value.length) < SIZE_MOD →
        Inv3 s1 ∧ s1._current_size = sumSizes s1._lru_head)) ∧
    (∃ b s1, Delete s key = some (b, s1) ∧ Inv3 s1 ∧
      s1._current_size = sumSizes s1._lru_head) ∧
    (∃ b v s1, Get s key buf = some (b, v, s1) ∧ Inv3 s1 ∧
      s1._current_size = sumSizes s1._lru_head) ∧
    ((∀ node ∈ s._lru_head, node.key = key → node.value.length ≤ value.length) →
      (∃ b s1, Set s key value = some (b, s1) ∧
        (s._current_size + (key.length + value.length) < SIZE_MOD →
          Inv3 s1 ∧ s1._current_size = sumSizes s1._lru_head)) ∧
      (∃ b s1, Put s key value = some (b, s1) ∧
        (s._current_size + (key.length + value.length) < SIZE_MOD →
          Inv3 s1 ∧ s1._current_size = sumSizes s1._lru_head))) := by
  obtain ⟨hwf, hex⟩ := (Inv3_iff s).mp hinv
  have hput_absent : key ∉ s._lru_index → ∃ b s1, Put s key value = some (b, s1) ∧
      (s._current_size + (key.length + value.length) < SIZE_MOD →
        Inv3 s1 ∧ s1._current_size = sumSizes s1._lru_head) := by
    intro hk
    by_cases hsize : key.length + value.length > s._max_size
    · exact ⟨false, s, Put_oversized hsize, fun _ => ⟨hinv, hex⟩⟩
    · have hle : key.length + value.length ≤ s._max_size := by omega
      obtain ⟨s2, h1, h2⟩ := SimplePut_total_Inv3 hinv hk hle
      exact ⟨true, s2, by rw [Put_absent hle hk, h1], fun h => ⟨h2 h, (h2 h).1⟩⟩
  refine ⟨hput_absent, ?_, ?_, ?_, ?_⟩
  · by_cases hk : key ∈ s._lru_index
    · exact ⟨false, s, PutIfAbsent_present hk, fun _ => ⟨hinv, hex⟩⟩
    · by_cases hsize : key.length + value.length > s._max_size
      · exact ⟨false, s, PutIfAbsent_oversized hsize, fun _ => ⟨hinv, hex⟩⟩
      · have hle : key.length + value.length ≤ s._max_size := by omega
        obtain ⟨s2, h1, h2⟩ := SimplePut_total_Inv3 hinv hk hle
        exact ⟨true, s2, by rw [PutIfAbsent_absent hle hk, h1],
          fun h => ⟨h2 h, (h2 h).1⟩⟩
  · by_cases hk : key ∈ s._lru_index
    · obtain ⟨pre, node, post, hl⟩ := locate_of_mem ((hwf.2.2.1 key).mp hk)
      obtain ⟨-, g2, g3⟩ := Delete_Inv3 hinv hk hl
      exact ⟨true, _, g2, g3, g3.1⟩
    · exact ⟨false, s, Delete_absent hk, hinv, hex⟩
  · by_cases hk : key ∈ s._lru_index
    · obtain ⟨pre, node, post, hl⟩ := locate_of_mem ((hwf.2.2.1 key).mp hk)
      have g := Get_Inv3 hinv hl
      exact ⟨true, node.value, _, Get_present buf hk hl, g, g.1⟩
    · exact ⟨false, buf, s, Get_absent buf hk, hinv, hex⟩
  · intro hgrow
    by_cases hk : key ∈ s._lru_index
    · by_cases hsize : key.length + value.length > s._max_size
      · exact ⟨⟨false, s, Set_oversized hsize, fun _ => ⟨hinv, hex⟩⟩,
          ⟨false, s, Put_oversized hsize, fun _ => ⟨hinv, hex⟩⟩⟩
      · have hle : key.length + value.length ≤ s._max_size := by omega
        obtain ⟨pre, node, post, hl⟩ := locate_of_mem ((hwf.2.2.1 key).mp hk)
        obtain ⟨hc, hkey, -⟩ := locate_some hl
        obtain ⟨s3, h1, h2⟩ := Set_total_Inv3 hinv hk hle hl
        have hnode : node ∈ s._lru_head := by rw [hc]; simp
        have hg := hgrow node hnode hkey
        exact ⟨⟨true, s3, h1, fun h => ⟨h2 h hg, (h2 h hg).1⟩⟩,
          ⟨true, s3, Put_of_Set_true hle h1, fun h => ⟨h2 h hg, (h2 h hg).1⟩⟩⟩
    · exact ⟨⟨false, s, Set_absent hk, fun _ => ⟨hinv, hex⟩⟩, hput_absent hk⟩

theorem C17_exact_accounting_preserved_witness :
    Inv3 scenarioState ∧
    (∀ node ∈ scenarioState._lru_head, node.key = ['b'] →
      node.value.length ≤ ['x', 'y', 'z'].length) ∧
    ∃ b s1, Set scenarioState ['b'] ['x', 'y', 'z'] = some (b, s1) ∧ Inv3 s1 ∧
      s1._current_size = sumSizes s1._lru_head :=
  ⟨by decide, by decide,
    match ((C17_exact_accounting_preserved scenarioState ['b'] ['x', 'y', 'z'] []
      (by decide)).2.2.2.2 (by decide)).1 with
    | ⟨b, s1, h1, h2⟩ => ⟨b, s1, h1, h2 (by decide)⟩⟩

/-- C19, as stated, fails for a size that makes the sum of the loop
condition wrap.  In the cache of capacity `2^64 - 1` holding `a:"1"`
(counter 2, the invariants of section 3 hold), `Clear(2^64 - 1)` has
`size <= _max_size`, finds `2 + (2^64 - 1)` wrapped to 1 in the loop
condition, evicts nothing and returns `true`, although
`_current_size + size` is above `_max_size`. -/
theorem C19_clear_exits_on_wrapped_sum :
    Inv3 wideState ∧ 18446744073709551615 ≤ wideState._max_size ∧
    Clear wideState 18446744073709551615 = some (true, wideState) ∧
    ¬ (wideState._current_size + 18446744073709551615 ≤ wideState._max_size) := by
  decide

/-- C19, amended: the eviction loop terminates.  When the invariants of
section 3 hold and `size <= _max_size`, `Clear(size)` returns `true` after
`n` calls of `Delete` for some `n` not above the number of live entries
(`n + 1` evaluations of the loop condition are enough); the calls removed
the first `n` entries from the LRU end, one per call, and on exit
`(_current_size + size) mod 2^64 <= _max_size`, which is
`_current_size + size <= _max_size` when `_current_size + size` was below
`2^64` on entry.  On a non-empty list a call `Delete(_lru_head->key)`
removes exactly the head and keeps the invariants.  For `size > _max_size`,
`Clear` returns `false` and the state is unchanged. -/
theorem C19_clear_terminates (s : SimpleLRU) (size : Nat) (hinv : Inv3 s) :
    (size ≤ s._max_size →
      ∃ n s1, n ≤ s._lru_head.length ∧ ClearLoop (n + 1) s size = some s1 ∧
        Clear s size = some (true, s1) ∧
        s1._lru_head = s._lru_head.drop n ∧
        s1._lru_head.length + n = s._lru_head.length ∧
        size_add s1._current_size size ≤ s1._max_size ∧
        (s._current_size + size < SIZE_MOD →
          s1._current_size + size ≤ s1._max_size) ∧
        s1._max_size = s._max_size) ∧
    (∀ head rest, s._lru_head = head :: rest →
      ∃ s2, Delete s head.key = some (true, s2) ∧ s2._lru_head = rest ∧
        s2._lru_head.length < s._lru_head.length ∧ Inv3 s2) ∧
    (size > s._max_size → Clear s size = some (false, s)) := by
  obtain ⟨hwf, hex⟩ := (Inv3_iff s).mp hinv
  refine ⟨?_, ?_, fun hbig => Clear_oversized hbig⟩
  · intro hsize
    obtain ⟨s1, hloop⟩ :=
      ClearLoop_total (s._lru_head.length + 1) s size hwf hex hsize (by omega)
    obtain ⟨n, -, g2, g3, g4, g5⟩ := ClearLoop_steps _ _ _ _ hloop
    obtain ⟨m, -, -, -, -, f5, -⟩ :=
      ClearLoop_keep _ _ _ _ s._lru_head [] hwf hex (by simp) (by simpa using hsize) hloop
    have hexit := ClearLoop_exit _ _ _ _ hloop
    refine ⟨n, s1, g2, g5, ?_, g3, g4, hexit, ?_, f5⟩
    · simp [Clear, show ¬ size > s._max_size by omega, hloop]
    · intro hnw
      obtain ⟨-, f2, f3, -⟩ := ClearLoop_spec _ _ _ _ hwf hnw hloop
      omega
  · intro head rest hc
    have hk := WF_head_mem hwf hc
    have hl : locate head.key s._lru_head = some ([], head, rest) := by
      rw [hc]; simp [locate]
    obtain ⟨-, g2, g3⟩ := Delete_Inv3 hinv hk hl
    refine ⟨_, g2, by simp, ?_, g3⟩
    rw [hc]
    simp

theorem C19_clear_terminates_witness :
    Inv3 scenarioState ∧ 5 ≤ scenarioState._max_size ∧
    ∃ n s1, n ≤ scenarioState._lru_head.length ∧
      ClearLoop (n + 1) scenarioState 5 = some s1 ∧
      Clear scenarioState 5 = some (true, s1) ∧
      s1._lru_head = scenarioState._lru_head.drop n ∧
      s1._lru_head.length + n = scenarioState._lru_head.length ∧
      s1._current_size + 5 ≤ s1._max_size ∧ s1._max_size = scenarioState._max_size :=
  ⟨by decide, by decide,
    match (C19_clear_terminates scenarioState 5 (by decide)).1 (by decide) with
    | ⟨n, s1, h1, h2, h3, h4, h5, _, h7, h8⟩ =>
      ⟨n, s1, h1, h2, h3, h4, h5, h7 (by decide), h8⟩⟩

end Afina.Backend
